import Mathlib

/-!
Shallow embedding of the quiz deduplication-and-reconciliation engine
(server storage backends and the client sync-preparation step).

Modelling conventions:
* JS numbers used as identifiers, versions and timestamps are modelled as `Nat`
  (`createdAt` timestamps are epoch milliseconds).
* Optional fields (`uniqueId?`, `version?`, `createdAt?`) are `Option`s; JS
  truthiness of these fields is expressed by `uidTruthy` (a string is truthy
  iff nonempty), `vtruthy` (a number is truthy iff nonzero) and
  `Option.isSome` for dates (a `Date` object / nonempty ISO string is truthy).
* The server's `Map<number, Quiz>` collections are modelled as lists in
  insertion order (`Map` iteration order), with unique numeric keys.
* `JSON.stringify` of the normalized question records is injective on its
  (all-string-leaf) input, so the content-hash string is modelled as the
  structured value it serializes; the `'|'.join` of the sorted option texts is
  kept as the joined string, exactly as in the source.
* `Array.prototype.sort` is a stable sort; `insertionSort` below is the
  textbook stable insertion sort, which agrees with any stable sort for a
  consistent comparator.  The default string comparator and `localeCompare`
  are modelled as lexicographic order on strings.
* The `matches >= min * 0.8` float comparison is modelled exactly as the
  rational comparison `5 * matches >= 4 * min` (for the integer operand sizes
  that arise, the double rounding of `min * 0.8` never crosses an integer).
-/

namespace QuizApp

/-- One quiz question, with the fields the reconciliation engine reads
(`questionImages`/`answerImages`/`answerDescription` never influence matching
and are omitted from the embedding). -/
structure Question where
  question : String
  options : List String
  correctAnswer : String
  deriving Repr, DecidableEq

/-- A quiz record as stored on the server (`id` is the numeric `Map` key). -/
structure Quiz where
  id : Nat
  uniqueId : Option String
  title : String
  questions : List Question
  isPublic : Bool
  version : Option Nat
  createdAt : Option Nat
  deriving Repr, DecidableEq

/-- JS truthiness of the optional `uniqueId` string field. -/
def uidTruthy : Option String → Bool
  | some s => s ≠ ""
  | none => false

/-- JS truthiness of the optional numeric `version` field. -/
def vtruthy : Option Nat → Bool
  | some n => n ≠ 0
  | none => false

/-- The `uniqueId` string (only meaningful when `uidTruthy`). -/
def uidStr (q : Quiz) : String := q.uniqueId.getD ""

/-- The version number, defaulting to `0` as in
`typeof quiz.version === 'number' ? quiz.version : 0`. -/
def vnum (q : Quiz) : Nat := q.version.getD 0

/-- The `createdAt` timestamp (defaulting irrelevant: used under `isSome`). -/
def tnum (q : Quiz) : Nat := q.createdAt.getD 0

/-- `s.toLowerCase().trim()` — the normalization applied to every compared
string — computed on the character list (ASCII case folding; trimming strips
leading and trailing whitespace). -/
def normalize (s : String) : String :=
  ⟨(((s.data.map Char.toLower).dropWhile Char.isWhitespace).reverse.dropWhile
      Char.isWhitespace).reverse⟩

/-- The normalized title, `quiz.title.toLowerCase().trim()`. -/
def normTitle (q : Quiz) : String := normalize q.title

/-- Insert into a sorted list, before the first element not below `a`
(the insertion step of a stable insertion sort). -/
def orderedInsert (le : α → α → Bool) (a : α) : List α → List α
  | [] => [a]
  | b :: l => if le a b then a :: b :: l else b :: orderedInsert le a l

/-- Stable insertion sort: models the (stable) `Array.prototype.sort`. -/
def insertionSort (le : α → α → Bool) : List α → List α
  | [] => []
  | a :: l => orderedInsert le a (insertionSort le l)

/-- Lexicographic comparison of character lists by code point. -/
def charListLe : List Char → List Char → Bool
  | [], _ => true
  | _ :: _, [] => false
  | a :: as, b :: bs =>
    if a.toNat < b.toNat then true
    else if b.toNat < a.toNat then false
    else charListLe as bs

/-- String comparison: models the default string comparator and
`localeCompare` as lexicographic order. -/
def strLe (a b : String) : Bool := charListLe a.data b.data

/-- The per-question record serialized into the content hash:
normalized question text, the normalized option texts sorted and joined with
`'|'`, and the normalized correct-answer text. -/
structure QuestionKey where
  question : String
  options : String
  correctAnswer : String
  deriving Repr, DecidableEq

/-- `{ question: ..., options: [...].sort().join('|'), correctAnswer: ... }`. -/
def questionKey (q : Question) : QuestionKey :=
  { question := normalize q.question
    options := String.intercalate "|" (insertionSort strLe (q.options.map normalize))
    correctAnswer := normalize q.correctAnswer }

/-- The content-hash string `title:count:JSON.stringify(sortedQuestionData)`,
modelled as the structured value it serializes (the serialization is injective
on this data). -/
structure ContentHash where
  title : String
  count : Nat
  data : List QuestionKey
  deriving Repr, DecidableEq

/-- Comparator used for `questionsData.sort((a, b) =>
a.question.localeCompare(b.question))`. -/
def keyLe (a b : QuestionKey) : Bool := strLe a.question b.question

/-- `createContentHash` / the client's `createQuizContentHash`: normalized
title, question count, and the per-question records sorted by normalized
question text. -/
def createContentHash (quiz : Quiz) : ContentHash :=
  let questionsData := quiz.questions.map questionKey
  { title := normalize quiz.title
    count := questionsData.length
    data := insertionSort keyLe questionsData }

/-- The precedence test of the first two dedup passes:
`(quiz.version && existing.version && quiz.version > existing.version) ||
 (quiz.createdAt && existing.createdAt && quiz.createdAt > existing.createdAt)`. -/
def keepNew (q ex : Quiz) : Bool :=
  (vtruthy q.version && vtruthy ex.version && decide (vnum ex < vnum q))
  || (q.createdAt.isSome && ex.createdAt.isSome && decide (tnum ex < tnum q))

/-- The precedence test of the fuzzy (third) pass, with versions defaulted
to `0`: `quiz1Version > quiz2Version || (quiz1.createdAt && quiz2.createdAt
&& quiz1.createdAt > quiz2.createdAt)`. -/
def keepQuiz1 (q1 q2 : Quiz) : Bool :=
  decide (vnum q2 < vnum q1)
  || (q1.createdAt.isSome && q2.createdAt.isSome && decide (tnum q2 < tnum q1))

/-- The pairwise Precedence Rule as the dedup passes apply it: `b` is the
record encountered first (the incumbent), `a` the later one; `a` displaces
`b` exactly when `keepNew a b`. -/
def precedence (b a : Quiz) : Quiz := if keepNew a b then a else b

/-- Number of questions of `qs1` that have a matching question in `qs2`
(equal normalized text or equal normalized correct answer), counting each
`qs1` question at most once (`break` on first hit). -/
def matchCount (qs1 qs2 : List Question) : Nat :=
  (qs1.filter (fun q1 => qs2.any (fun q2 =>
    normalize q1.question = normalize q2.question
      ∨ normalize q1.correctAnswer = normalize q2.correctAnswer))).length

/-- `Math.abs(a - b)` on question counts. -/
def dist (a b : Nat) : Nat := max a b - min a b

/-- The fuzzy-tier verdict for an ordered pair `(quiz1, quiz2)`: skipped
(false) when the question counts differ by more than 1, otherwise duplicate
iff `matchCount >= 0.8 * min(len1, len2)`. -/
def similarVerdict (q1 q2 : Quiz) : Bool :=
  if 1 < dist q1.questions.length q2.questions.length then false
  else decide (4 * min q1.questions.length q2.questions.length
      ≤ 5 * matchCount q1.questions q2.questions)

/-! ### Association lists (JS `Map<string, Quiz>` in insertion order) -/

/-- `Map.get`. -/
def alookup [DecidableEq κ] (k : κ) : List (κ × β) → Option β
  | [] => none
  | (k', v) :: r => if k' = k then some v else alookup k r

/-- `Map.set` on an existing key: replace in place, preserving order. -/
def aupdate [DecidableEq κ] (k : κ) (v : β) : List (κ × β) → List (κ × β)
  | [] => []
  | (k', v') :: r => if k' = k then (k, v) :: r else (k', v') :: aupdate k v r

/-! ### FileStorage.removeDuplicateQuizzes -/

/-- The bookkeeping shared by the three passes: the set of ids to keep and
the accumulated `duplicatesToRemove` list. -/
structure PassState where
  keep : Finset Nat
  removed : List Quiz
  deriving DecidableEq

namespace FileStorage

/-- First pass (content hash over all quizzes): one step of the loop body. -/
def p1Step : List (ContentHash × Quiz) × PassState → Quiz →
    List (ContentHash × Quiz) × PassState
  | (m, st), q =>
    let h := createContentHash q
    match alookup h m with
    | none => (m ++ [(h, q)], { st with keep := insert q.id st.keep })
    | some ex =>
      if q.id = ex.id then (m, st)
      else if keepNew q ex then
        (aupdate h q m,
         { keep := insert q.id (st.keep.erase ex.id),
           removed := st.removed ++ [ex] })
      else (m, { st with removed := st.removed ++ [q] })

/-- First pass over the whole collection. -/
def pass1 (l : List Quiz) : List (ContentHash × Quiz) × PassState :=
  l.foldl p1Step ([], ⟨∅, []⟩)

/-- Second pass (uniqueId among kept quizzes): one step of the loop body. -/
def p2Step : List (String × Quiz) × PassState → Quiz →
    List (String × Quiz) × PassState
  | (m, st), q =>
    if q.id ∉ st.keep ∨ uidTruthy q.uniqueId = false then (m, st)
    else
      match alookup (uidStr q) m with
      | none => (m ++ [(uidStr q, q)], st)
      | some ex =>
        if q.id = ex.id then (m, st)
        else if keepNew q ex then
          (aupdate (uidStr q) q m,
           { keep := st.keep.erase ex.id, removed := st.removed ++ [ex] })
        else (m, { keep := st.keep.erase q.id, removed := st.removed ++ [q] })

/-- Second pass over the whole collection. -/
def pass2 (l : List Quiz) (st : PassState) : List (String × Quiz) × PassState :=
  l.foldl p2Step ([], st)

/-- Append a quiz to its (normalized-)title bucket, keeping bucket order. -/
def addToGroup (t : String) (q : Quiz) :
    List (String × List Quiz) → List (String × List Quiz)
  | [] => [(t, [q])]
  | (t', g) :: r =>
    if t' = t then (t', g ++ [q]) :: r else (t', g) :: addToGroup t q r

/-- The `titleMap` of the third pass, built from the still-kept quizzes. -/
def buildTitleMap (keep : Finset Nat) (l : List Quiz) :
    List (String × List Quiz) :=
  l.foldl (fun m q => if q.id ∈ keep then addToGroup (normTitle q) q m else m) []

/-- Inner loop of the third pass: compare `q1` against the later members of
its title group; a loss for `q1` removes it and breaks out of the loop. -/
def p3Inner (q1 : Quiz) : List Quiz → PassState → PassState
  | [], st => st
  | q2 :: rest, st =>
    if q2.id ∉ st.keep then p3Inner q1 rest st
    else if similarVerdict q1 q2 then
      if keepQuiz1 q1 q2 then
        p3Inner q1 rest
          { keep := st.keep.erase q2.id, removed := st.removed ++ [q2] }
      else { keep := st.keep.erase q1.id, removed := st.removed ++ [q1] }
    else p3Inner q1 rest st

/-- Outer loop of the third pass over one title group. -/
def p3Outer : List Quiz → PassState → PassState
  | [], st => st
  | q1 :: rest, st =>
    if q1.id ∉ st.keep then p3Outer rest st
    else p3Outer rest (p3Inner q1 rest st)

/-- Third pass over all title groups (groups of size 1 are skipped). -/
def p3Groups : List (String × List Quiz) → PassState → PassState
  | [], st => st
  | (_, g) :: r, st =>
    p3Groups r (if 1 < g.length then p3Outer g st else st)

/-- Third pass. -/
def pass3 (l : List Quiz) (st : PassState) : PassState :=
  p3Groups (buildTitleMap st.keep l) st

/-- The outcome of `removeDuplicateQuizzes`: the collection left in the store
and the deleted duplicates. -/
structure DedupResult where
  survivors : List Quiz
  removed : List Quiz
  deriving Repr, DecidableEq

/-- `FileStorage.removeDuplicateQuizzes`: three passes, then every
accumulated duplicate is deleted from the collection by its id. -/
def removeDuplicateQuizzes (l : List Quiz) : DedupResult :=
  if l.length ≤ 1 then ⟨l, []⟩
  else
    let st1 := (pass1 l).2
    let st2 := (pass2 l st1).2
    let st3 := pass3 l st2
    ⟨l.filter (fun q => decide (q.id ∉ st3.removed.map Quiz.id)), st3.removed⟩

/-! ### FileStorage store operations and syncQuizzes -/

/-- The shared store: the quiz `Map` (insertion order) and the id counter. -/
structure StoreState where
  quizzes : List Quiz
  nextId : Nat
  deriving Repr, DecidableEq

/-- `getQuizByUniqueId`: first stored quiz whose `uniqueId` equals the key. -/
def getQuizByUniqueId (s : StoreState) (u : String) : Option Quiz :=
  s.quizzes.find? (fun q => q.uniqueId = some u)

/-- `getPublicQuizzes`. -/
def getPublicQuizzes (s : StoreState) : List Quiz :=
  s.quizzes.filter (·.isPublic)

/-- `createQuiz`: assign the next id, generate a `uniqueId` when the incoming
one is falsy (`fresh` stands for `uuidv4()`), default `version` to 1 and
`createdAt` to `now`. -/
def createQuiz (fresh : String) (now : Nat) (s : StoreState) (q : Quiz) :
    StoreState :=
  let newQuiz : Quiz :=
    { q with
      id := s.nextId
      uniqueId := if uidTruthy q.uniqueId then q.uniqueId else some fresh
      version := some (if vtruthy q.version then vnum q else 1)
      createdAt := some (if q.createdAt.isSome then tnum q else now) }
  { quizzes := s.quizzes ++ [newQuiz], nextId := s.nextId + 1 }

/-- The record written by `updateQuiz`: every field of the incoming quiz
(an `InsertQuiz` carries all fields but `id`), the stored `id`, and
`version := existing.version ? existing.version + 1 : 1`. -/
def mkUpdated (patch ex : Quiz) : Quiz :=
  { patch with
    id := ex.id
    version := some (if vtruthy ex.version then vnum ex + 1 else 1) }

/-- `updateQuiz` on the quiz list: replace the record stored under `id`
in place (a `Map.set` on an existing key). -/
def updateQuizList (i : Nat) (patch : Quiz) : List Quiz → List Quiz
  | [] => []
  | q :: r => if q.id = i then mkUpdated patch q :: r
    else q :: updateQuizList i patch r

/-- `deleteQuiz` by numeric id. -/
def deleteQuiz (s : StoreState) (i : Nat) : StoreState :=
  { s with quizzes := s.quizzes.filter (fun r => decide (r.id ≠ i)) }

/-- `deletePrivateQuizzes`: purge every non-public record. -/
def deletePrivateQuizzes (s : StoreState) : StoreState :=
  { s with quizzes := s.quizzes.filter (·.isPublic) }

/-- One iteration of the upsert loop of `syncQuizzes`: skip quizzes without a
`uniqueId`; update the record found under the `uniqueId`, else create. -/
def upsertStep (now : Nat) (s : StoreState) (q : Quiz) : StoreState :=
  if uidTruthy q.uniqueId = false then s
  else
    match getQuizByUniqueId s (uidStr q) with
    | some ex => { s with quizzes := updateQuizList ex.id q s.quizzes }
    | none => createQuiz "" now s q

/-- One iteration of the privacy loop of `syncQuizzes`: a non-public batch
member with a `uniqueId` deletes the server record found under that id. -/
def privateDeleteStep (s : StoreState) (q : Quiz) : StoreState :=
  if q.isPublic = false ∧ uidTruthy q.uniqueId = true then
    match getQuizByUniqueId s (uidStr q) with
    | some ex => deleteQuiz s ex.id
    | none => s
  else s

/-- `FileStorage.syncQuizzes`: filter to public, upsert each by `uniqueId`,
delete records turned private, purge private records, run duplicate removal,
and answer with the public set. -/
def syncQuizzes (now : Nat) (batch : List Quiz) (s : StoreState) :
    List Quiz × StoreState :=
  let publicQuizzesToSync := batch.filter (·.isPublic)
  let s1 := publicQuizzesToSync.foldl (upsertStep now) s
  let s2 := batch.foldl privateDeleteStep s1
  let s3 := deletePrivateQuizzes s2
  let s4 := { s3 with quizzes := (removeDuplicateQuizzes s3.quizzes).survivors }
  (getPublicQuizzes s4, s4)

end FileStorage

/-! ### MemStorage.removeDuplicateQuizzes -/

namespace MemStorage

/-- First pass (uniqueId): quizzes without a `uniqueId` are kept outright. -/
def p1Step : List (String × Quiz) × PassState → Quiz →
    List (String × Quiz) × PassState
  | (m, st), q =>
    if uidTruthy q.uniqueId = false then
      (m, { st with keep := insert q.id st.keep })
    else
      match alookup (uidStr q) m with
      | none => (m ++ [(uidStr q, q)], { st with keep := insert q.id st.keep })
      | some ex =>
        if keepNew q ex then
          (aupdate (uidStr q) q m,
           { keep := insert q.id (st.keep.erase ex.id),
             removed := st.removed ++ [ex] })
        else (m, { st with removed := st.removed ++ [q] })

/-- Second pass (content hash), applied only to kept quizzes *without* a
`uniqueId`: one step of the loop body. -/
def p2Step : List (ContentHash × Quiz) × PassState → Quiz →
    List (ContentHash × Quiz) × PassState
  | (m, st), q =>
    if q.id ∉ st.keep then (m, st)
    else if uidTruthy q.uniqueId = true then (m, st)
    else
      let h := createContentHash q
      match alookup h m with
      | none => (m ++ [(h, q)], st)
      | some ex =>
        if keepNew q ex then
          (aupdate h q m,
           { keep := insert q.id (st.keep.erase ex.id),
             removed := st.removed ++ [ex] })
        else (m, { keep := st.keep.erase q.id, removed := st.removed ++ [q] })

/-- Second (content) pass over the whole collection. -/
def contentPass (l : List Quiz) (st : PassState) :
    List (ContentHash × Quiz) × PassState :=
  l.foldl p2Step ([], st)

/-- The fuzzy verdict of MemStorage's third pass, which additionally skips
pairs carrying two distinct `uniqueId`s. -/
def memSkipPair (q1 q2 : Quiz) : Bool :=
  uidTruthy q1.uniqueId && uidTruthy q2.uniqueId
    && decide (q1.uniqueId ≠ q2.uniqueId)

/-- Inner loop of MemStorage's third pass. -/
def p3Inner (q1 : Quiz) : List Quiz → PassState → PassState
  | [], st => st
  | q2 :: rest, st =>
    if q2.id ∉ st.keep then p3Inner q1 rest st
    else if memSkipPair q1 q2 then p3Inner q1 rest st
    else if similarVerdict q1 q2 then
      if keepNew q1 q2 then
        p3Inner q1 rest
          { keep := st.keep.erase q2.id, removed := st.removed ++ [q2] }
      else { keep := st.keep.erase q1.id, removed := st.removed ++ [q1] }
    else p3Inner q1 rest st

/-- Outer loop of MemStorage's third pass over one title group. -/
def p3Outer : List Quiz → PassState → PassState
  | [], st => st
  | q1 :: rest, st =>
    if q1.id ∉ st.keep then p3Outer rest st
    else p3Outer rest (p3Inner q1 rest st)

/-- Third pass over all title groups. -/
def p3Groups : List (String × List Quiz) → PassState → PassState
  | [], st => st
  | (_, g) :: r, st =>
    p3Groups r (if 1 < g.length then p3Outer g st else st)

/-- `MemStorage.removeDuplicateQuizzes`: uniqueId pass, content pass
restricted to quizzes without a `uniqueId`, then the fuzzy title pass. -/
def removeDuplicateQuizzes (l : List Quiz) : FileStorage.DedupResult :=
  let st1 := (l.foldl p1Step ([], ⟨∅, []⟩)).2
  let st2 := (contentPass l st1).2
  let st3 := p3Groups (FileStorage.buildTitleMap st2.keep l) st2
  ⟨l.filter (fun q => decide (q.id ∉ st3.removed.map Quiz.id)), st3.removed⟩

end MemStorage

/-! ### Client-side sync preparation (`preparedQuizzes` in Quiz.tsx) -/

/-- The client's sync preparation: keep the public quizzes, give any of them
lacking a `uniqueId` a freshly generated one (`fresh i` stands for the
`crypto.randomUUID()` drawn for the i-th list member), and drop members that
turn out non-public. -/
def preparedQuizzes (fresh : Nat → String) (qs : List Quiz) : List Quiz :=
  (((qs.filter (·.isPublic)).enum.map (fun p =>
      if uidTruthy p.2.uniqueId then p.2
      else { p.2 with uniqueId := some (fresh p.1) }))).filter (·.isPublic)

/-! ### Specification predicates used by the deduplication proofs -/

/-- The pairwise shape of a deduplicated collection, in list order: distinct
ids, distinct fingerprints, distinct truthy stableIds, and no fuzzy-duplicate
verdict between same-titled records. -/
def CleanList (l : List Quiz) : Prop :=
  l.Pairwise (fun a b =>
    a.id ≠ b.id ∧
    createContentHash a ≠ createContentHash b ∧
    (uidTruthy a.uniqueId = true → uidTruthy b.uniqueId = true →
      a.uniqueId ≠ b.uniqueId) ∧
    (normTitle a = normTitle b → similarVerdict a b = false))

/-- Bookkeeping soundness of a pass state for a collection: a member is kept
exactly when it is not recorded as removed, and only members are recorded. -/
def StateCompl (l : List Quiz) (st : PassState) : Prop :=
  (∀ q ∈ l, (q.id ∈ st.keep ↔ q ∉ st.removed)) ∧ ∀ r ∈ st.removed, r ∈ l

/-- Loop invariant of the first (content-hash) dedup pass over the processed
prefix. -/
def P1Inv (processed : List Quiz) (m : List (ContentHash × Quiz))
    (st : PassState) : Prop :=
  (m.map Prod.fst).Nodup ∧
  (∀ p ∈ m, createContentHash p.2 = p.1 ∧ p.2 ∈ processed) ∧
  (∀ q ∈ processed, (q.id ∈ st.keep ↔ ∃ p ∈ m, p.2 = q)) ∧
  (∀ q ∈ processed, (q ∈ st.removed ↔ ¬ q.id ∈ st.keep)) ∧
  (∀ r ∈ st.removed, r ∈ processed) ∧
  (∀ i ∈ st.keep, ∃ q ∈ processed, q.id = i)

/-- Loop invariant of the second (uniqueId) dedup pass over the processed
prefix. -/
def P2Inv (processed : List Quiz) (m : List (String × Quiz))
    (st : PassState) : Prop :=
  (m.map Prod.fst).Nodup ∧
  (∀ p ∈ m, uidTruthy p.2.uniqueId = true ∧ uidStr p.2 = p.1 ∧
    p.2 ∈ processed ∧ p.2.id ∈ st.keep) ∧
  (∀ q ∈ processed, uidTruthy q.uniqueId = true → q.id ∈ st.keep →
    alookup (uidStr q) m = some q)

/-! ### Concrete records used in counterexamples and witnesses -/

/-- A public quiz that has never been synced: no `uniqueId` yet. -/
def c1quiz : Quiz :=
  { id := 7, uniqueId := none, title := "Capitals", questions := [],
    isPublic := true, version := some 1, createdAt := some 5 }

/-- A shared-store record at version 5. -/
def c2stored : Quiz :=
  { id := 1, uniqueId := some "u", title := "old", questions := [],
    isPublic := true, version := some 5, createdAt := some 100 }

/-- An incoming copy that loses the Precedence Rule against `c2stored`
(smaller version, earlier creation). -/
def c2inc : Quiz :=
  { id := 99, uniqueId := some "u", title := "new", questions := [],
    isPublic := true, version := some 1, createdAt := some 50 }

/-- A stored public record under `uniqueId` "u". -/
def c3stored : Quiz :=
  { id := 1, uniqueId := some "u", title := "T", questions := [],
    isPublic := true, version := some 1, createdAt := some 1 }

/-- The same logical quiz flipped private on the client. -/
def c3priv : Quiz :=
  { id := 50, uniqueId := some "u", title := "T", questions := [],
    isPublic := false, version := some 2, createdAt := some 2 }

/-- Two content-identical quizzes (options permuted, same normalized text):
used to exercise one dedup collapse. -/
def c4a : Quiz :=
  { id := 1, uniqueId := none, title := "Dup", questions := [⟨"q", ["a", "b"], "a"⟩],
    isPublic := true, version := some 1, createdAt := some 10 }

/-- See `c4a`: the later, higher-version copy. -/
def c4b : Quiz :=
  { id := 2, uniqueId := none, title := "Dup", questions := [⟨"q", ["b", "a"], "a"⟩],
    isPublic := true, version := some 2, createdAt := some 20 }

/-- A quiz with two questions having the same text but different answers. -/
def cex5 : Quiz :=
  { id := 1, uniqueId := none, title := "t",
    questions := [⟨"a", ["o"], "x"⟩, ⟨"a", ["o"], "y"⟩],
    isPublic := true, version := none, createdAt := none }

/-- `cex5` with its questions permuted. -/
def cex5perm : Quiz := { cex5 with questions := cex5.questions.reverse }

/-- Content-identical quizzes for the precedence counterexample: the first
one has the strictly greater version but the earlier creation date. -/
def c6a : Quiz :=
  { id := 1, uniqueId := none, title := "P", questions := [⟨"q", ["a"], "a"⟩],
    isPublic := true, version := some 2, createdAt := some 50 }

/-- See `c6a`: smaller version, later creation date. -/
def c6b : Quiz :=
  { id := 2, uniqueId := none, title := "P", questions := [⟨"q", ["a"], "a"⟩],
    isPublic := true, version := some 1, createdAt := some 100 }

/-- Higher version, earlier date (conflicting orders with `c7b`). -/
def c7a : Quiz :=
  { id := 1, uniqueId := none, title := "P", questions := [],
    isPublic := true, version := some 2, createdAt := some 50 }

/-- Lower version, later date (conflicting orders with `c7a`). -/
def c7b : Quiz :=
  { id := 2, uniqueId := none, title := "P", questions := [],
    isPublic := true, version := some 1, createdAt := some 100 }

/-- Two records sharing `uniqueId` "same" with different contents. -/
def c8a : Quiz :=
  { id := 1, uniqueId := some "same", title := "A", questions := [⟨"qa", ["1"], "1"⟩],
    isPublic := true, version := some 1, createdAt := some 1 }

/-- See `c8a`. -/
def c8b : Quiz :=
  { id := 2, uniqueId := some "same", title := "B", questions := [⟨"qb", ["2"], "2"⟩],
    isPublic := true, version := some 3, createdAt := some 3 }

/-- Scenario F: same title, 4 questions, two of them matching `scenF2`. -/
def scenF1 : Quiz :=
  { id := 1, uniqueId := none, title := "Same",
    questions := [⟨"a", ["x"], "1"⟩, ⟨"b", ["x"], "2"⟩, ⟨"c", ["x"], "3"⟩,
      ⟨"d", ["x"], "4"⟩],
    isPublic := true, version := some 1, createdAt := some 1 }

/-- Scenario F: same title, 5 questions, only two matching `scenF1`. -/
def scenF2 : Quiz :=
  { id := 2, uniqueId := none, title := "Same",
    questions := [⟨"a", ["x"], "1"⟩, ⟨"b", ["x"], "2"⟩, ⟨"z", ["x"], "9"⟩,
      ⟨"w", ["x"], "8"⟩, ⟨"v", ["x"], "7"⟩],
    isPublic := true, version := some 1, createdAt := some 2 }

/-- A quiz with two questions of distinct texts (for the amended
order-independence statement). -/
def w5base : Quiz :=
  { id := 1, uniqueId := none, title := "t",
    questions := [⟨"a", ["o1", "o2"], "x"⟩, ⟨"b", ["p2", "p1"], "y"⟩],
    isPublic := true, version := none, createdAt := none }

/-- `w5base` with its questions reversed. -/
def w5perm : Quiz := { w5base with questions := w5base.questions.reverse }

/-- A quiz with `stableId` "A" whose content equals `c10b`'s. -/
def c10a : Quiz :=
  { id := 1, uniqueId := some "A", title := "T", questions := [⟨"q1", ["a", "b"], "a"⟩],
    isPublic := true, version := some 2, createdAt := some 50 }

/-- A quiz with `stableId` "B" whose content equals `c10a`'s. -/
def c10b : Quiz :=
  { id := 2, uniqueId := some "B", title := "T", questions := [⟨"q1", ["b", "a"], "a"⟩],
    isPublic := true, version := some 1, createdAt := some 100 }

/-- A quiz without a `uniqueId`, content-identical to `c10d`. -/
def c10c : Quiz :=
  { id := 3, uniqueId := none, title := "T", questions := [⟨"q1", ["a", "b"], "a"⟩],
    isPublic := true, version := some 1, createdAt := some 10 }

/-- A quiz without a `uniqueId`, content-identical to `c10c`. -/
def c10d : Quiz :=
  { id := 4, uniqueId := none, title := "T", questions := [⟨"q1", ["b", "a"], "a"⟩],
    isPublic := true, version := some 1, createdAt := some 5 }

end QuizApp

namespace QuizApp

/-! ## Stable-sort facts -/

theorem mem_orderedInsert {le : α → α → Bool} (a x : α) (l : List α) :
    x ∈ orderedInsert le a l ↔ x = a ∨ x ∈ l := by
  induction l with
  | nil => simp [orderedInsert]
  | cons b l ih =>
    by_cases h : le a b
    · simp [orderedInsert, h]
    · simp [orderedInsert, h, ih]
      tauto

theorem orderedInsert_perm {le : α → α → Bool} (a : α) (l : List α) :
    (orderedInsert le a l).Perm (a :: l) := by
  induction l with
  | nil => simp [orderedInsert]
  | cons b l ih =>
    by_cases h : le a b
    · simp [orderedInsert, h]
    · simp only [orderedInsert, h, if_neg, Bool.false_eq_true, not_false_iff]
      exact (ih.cons b).trans (List.Perm.swap a b l)

theorem insertionSort_perm {le : α → α → Bool} (l : List α) :
    (insertionSort le l).Perm l := by
  induction l with
  | nil => simp [insertionSort]
  | cons a l ih => exact (orderedInsert_perm a _).trans (ih.cons a)

theorem orderedInsert_pairwise {le : α → α → Bool}
    (htot : ∀ a b, le a b = true ∨ le b a = true)
    (htrans : ∀ a b c, le a b = true → le b c = true → le a c = true)
    (a : α) {l : List α} (hl : l.Pairwise (fun x y => le x y = true)) :
    (orderedInsert le a l).Pairwise (fun x y => le x y = true) := by
  induction l with
  | nil => simp [orderedInsert]
  | cons b l ih =>
    rcases List.pairwise_cons.mp hl with ⟨hb, hl'⟩
    by_cases h : le a b
    · simp only [orderedInsert, h, if_pos]
      refine List.pairwise_cons.mpr ⟨?_, hl⟩
      intro x hx
      rcases List.mem_cons.mp hx with rfl | hx
      · exact h
      · exact htrans a b x h (hb x hx)
    · have hba : le b a = true := (htot a b).resolve_left h
      simp only [orderedInsert, h, if_neg, Bool.false_eq_true, not_false_iff]
      refine List.pairwise_cons.mpr ⟨?_, ih hl'⟩
      intro x hx
      rcases (mem_orderedInsert a x l).mp hx with rfl | hx
      · exact hba
      · exact hb x hx

theorem insertionSort_pairwise {le : α → α → Bool}
    (htot : ∀ a b, le a b = true ∨ le b a = true)
    (htrans : ∀ a b c, le a b = true → le b c = true → le a c = true)
    (l : List α) :
    (insertionSort le l).Pairwise (fun x y => le x y = true) := by
  induction l with
  | nil => simp [insertionSort]
  | cons a l ih => exact orderedInsert_pairwise htot htrans a ih

theorem sorted_perm_eq {le : α → α → Bool}
    (hanti : ∀ a b, le a b = true → le b a = true → a = b) :
    ∀ {l₁ l₂ : List α}, l₁.Perm l₂ →
      l₁.Pairwise (fun x y => le x y = true) →
      l₂.Pairwise (fun x y => le x y = true) → l₁ = l₂ := by
  intro l₁
  induction l₁ with
  | nil => intro l₂ hp _ _; exact (hp.symm.eq_nil).symm
  | cons a t ih =>
    intro l₂ hp h₁ h₂
    cases l₂ with
    | nil => exact absurd hp.eq_nil (by simp)
    | cons b t₂ =>
      rcases List.pairwise_cons.mp h₁ with ⟨ha, h₁'⟩
      rcases List.pairwise_cons.mp h₂ with ⟨hb, h₂'⟩
      by_cases hab : a = b
      · subst hab
        have := ih (hp.cons_inv) h₁' h₂'
        rw [this]
      · have haMem : a ∈ t₂ := by
          have : a ∈ b :: t₂ := hp.mem_iff.mp (by simp)
          rcases List.mem_cons.mp this with h | h
          · exact absurd h hab
          · exact h
        have hbMem : b ∈ t := by
          have : b ∈ a :: t := hp.mem_iff.mpr (by simp)
          rcases List.mem_cons.mp this with h | h
          · exact absurd h.symm hab
          · exact h
        exact absurd (hanti a b (ha b hbMem) (hb a haMem)) hab

theorem sorted_perm_eq_of_key {β : Type} {key : α → β} {le : α → α → Bool}
    (hanti : ∀ a b, le a b = true → le b a = true → key a = key b) :
    ∀ {l₁ l₂ : List α}, l₁.Perm l₂ →
      l₁.Pairwise (fun x y => le x y = true) →
      l₂.Pairwise (fun x y => le x y = true) →
      (l₁.map key).Nodup → l₁ = l₂ := by
  intro l₁
  induction l₁ with
  | nil => intro l₂ hp _ _ _; exact (hp.symm.eq_nil).symm
  | cons a t ih =>
    intro l₂ hp h₁ h₂ hnd
    cases l₂ with
    | nil => exact absurd hp.eq_nil (by simp)
    | cons b t₂ =>
      rcases List.pairwise_cons.mp h₁ with ⟨ha, h₁'⟩
      rcases List.pairwise_cons.mp h₂ with ⟨hb, h₂'⟩
      by_cases hab : a = b
      · subst hab
        have := ih (hp.cons_inv) h₁' h₂' (by simpa using hnd.of_cons)
        rw [this]
      · have haMem : a ∈ t₂ := by
          have : a ∈ b :: t₂ := hp.mem_iff.mp (by simp)
          rcases List.mem_cons.mp this with h | h
          · exact absurd h hab
          · exact h
        have hbMem : b ∈ t := by
          have : b ∈ a :: t := hp.mem_iff.mpr (by simp)
          rcases List.mem_cons.mp this with h | h
          · exact absurd h.symm hab
          · exact h
        have hkey : key a = key b := hanti a b (ha b hbMem) (hb a haMem)
        have : key a ∉ (t.map key) := by
          have := List.pairwise_cons.mp hnd
          intro hmem
          rcases List.mem_map.mp hmem with ⟨c, hc, hkc⟩
          exact this.1 (key c) (List.mem_map.mpr ⟨c, hc, rfl⟩) hkc.symm
        exact absurd (List.mem_map.mpr ⟨b, hbMem, hkey.symm⟩) this

/-! ## The string comparator -/

theorem charToNat_inj {a b : Char} (h : a.toNat = b.toNat) : a = b :=
  Char.ext (UInt32.ext h)

theorem charListLe_cons_iff {a b : Char} {as bs : List Char} :
    charListLe (a :: as) (b :: bs) = true ↔
      a.toNat < b.toNat ∨ (a.toNat = b.toNat ∧ charListLe as bs = true) := by
  by_cases h : a.toNat < b.toNat
  · simp [charListLe, h]
  · by_cases h' : b.toNat < a.toNat
    · simp [charListLe, h, h']
      omega
    · have heq : a.toNat = b.toNat := by omega
      simp [charListLe, h, h', heq]

theorem charListLe_total : ∀ l₁ l₂ : List Char,
    charListLe l₁ l₂ = true ∨ charListLe l₂ l₁ = true
  | [], _ => Or.inl rfl
  | _ :: _, [] => Or.inr rfl
  | a :: as, b :: bs => by
    rcases Nat.lt_trichotomy a.toNat b.toNat with h | h | h
    · exact Or.inl (charListLe_cons_iff.mpr (Or.inl h))
    · rcases charListLe_total as bs with h' | h'
      · exact Or.inl (charListLe_cons_iff.mpr (Or.inr ⟨h, h'⟩))
      · exact Or.inr (charListLe_cons_iff.mpr (Or.inr ⟨h.symm, h'⟩))
    · exact Or.inr (charListLe_cons_iff.mpr (Or.inl h))

theorem charListLe_trans : ∀ l₁ l₂ l₃ : List Char,
    charListLe l₁ l₂ = true → charListLe l₂ l₃ = true → charListLe l₁ l₃ = true
  | [], _, _ => fun _ _ => rfl
  | _ :: _, [], _ => fun h _ => by simp [charListLe] at h
  | _ :: _, _ :: _, [] => fun _ h => by simp [charListLe] at h
  | a :: as, b :: bs, c :: cs => fun h₁ h₂ => by
    rcases charListLe_cons_iff.mp h₁ with h₁' | ⟨h₁e, h₁r⟩ <;>
      rcases charListLe_cons_iff.mp h₂ with h₂' | ⟨h₂e, h₂r⟩
    · exact charListLe_cons_iff.mpr (Or.inl (by omega))
    · exact charListLe_cons_iff.mpr (Or.inl (by omega))
    · exact charListLe_cons_iff.mpr (Or.inl (by omega))
    · exact charListLe_cons_iff.mpr
        (Or.inr ⟨by omega, charListLe_trans as bs cs h₁r h₂r⟩)

theorem charListLe_antisymm : ∀ l₁ l₂ : List Char,
    charListLe l₁ l₂ = true → charListLe l₂ l₁ = true → l₁ = l₂
  | [], [] => fun _ _ => rfl
  | [], _ :: _ => fun _ h => by simp [charListLe] at h
  | _ :: _, [] => fun h _ => by simp [charListLe] at h
  | a :: as, b :: bs => fun h₁ h₂ => by
    rcases charListLe_cons_iff.mp h₁ with h₁' | ⟨h₁e, h₁r⟩ <;>
      rcases charListLe_cons_iff.mp h₂ with h₂' | ⟨h₂e, h₂r⟩
    · omega
    · omega
    · omega
    · rw [charToNat_inj h₁e, charListLe_antisymm as bs h₁r h₂r]

theorem strLe_total (a b : String) : strLe a b = true ∨ strLe b a = true :=
  charListLe_total a.data b.data

theorem strLe_trans (a b c : String) (h₁ : strLe a b = true)
    (h₂ : strLe b c = true) : strLe a c = true :=
  charListLe_trans a.data b.data c.data h₁ h₂

theorem strLe_antisymm (a b : String) (h₁ : strLe a b = true)
    (h₂ : strLe b a = true) : a = b := by
  cases a; cases b
  exact congrArg String.mk (charListLe_antisymm _ _ h₁ h₂)

theorem keyLe_total (a b : QuestionKey) : keyLe a b = true ∨ keyLe b a = true :=
  strLe_total a.question b.question

theorem keyLe_trans (a b c : QuestionKey) (h₁ : keyLe a b = true)
    (h₂ : keyLe b c = true) : keyLe a c = true :=
  strLe_trans _ _ _ h₁ h₂

theorem keyLe_key_eq (a b : QuestionKey) (h₁ : keyLe a b = true)
    (h₂ : keyLe b a = true) : a.question = b.question :=
  strLe_antisymm _ _ h₁ h₂

/-! ## Fingerprint order-(in)dependence -/

theorem questionKey_options_perm (a b : Question)
    (hq : a.question = b.question) (hc : a.correctAnswer = b.correctAnswer)
    (ho : a.options.Perm b.options) : questionKey a = questionKey b := by
  have hsort : insertionSort strLe (a.options.map normalize)
      = insertionSort strLe (b.options.map normalize) := by
    refine sorted_perm_eq strLe_antisymm ?_
      (insertionSort_pairwise strLe_total strLe_trans _)
      (insertionSort_pairwise strLe_total strLe_trans _)
    exact (insertionSort_perm _).trans
      ((ho.map normalize).trans (insertionSort_perm _).symm)
  simp [questionKey, hq, hc, hsort]

theorem createContentHash_perm (q q' : Quiz) (ht : q'.title = q.title)
    (hperm : (q'.questions.map questionKey).Perm (q.questions.map questionKey))
    (hnd : ((q.questions.map questionKey).map QuestionKey.question).Nodup) :
    createContentHash q' = createContentHash q := by
  have hsort : insertionSort keyLe (q'.questions.map questionKey)
      = insertionSort keyLe (q.questions.map questionKey) := by
    refine sorted_perm_eq_of_key keyLe_key_eq ?_
      (insertionSort_pairwise keyLe_total keyLe_trans _)
      (insertionSort_pairwise keyLe_total keyLe_trans _) ?_
    · exact (insertionSort_perm _).trans
        (hperm.trans (insertionSort_perm _).symm)
    · refine (List.Perm.nodup_iff ?_).mpr hnd
      exact (((insertionSort_perm _).trans hperm).map _)
  have hlen : (q'.questions.map questionKey).length
      = (q.questions.map questionKey).length := hperm.length_eq
  simp only [createContentHash, ht, hsort]
  simp [hlen]

/-- C5: the content fingerprint is *not* invariant under every permutation of
the questions: reversing two questions that share the same normalized text
but differ in their correct answers changes the fingerprint (the question
sort is keyed only by the question text and is stable). -/
theorem C5_counterexample :
    cex5perm.questions.Perm cex5.questions ∧
    cex5perm.title = cex5.title ∧
    createContentHash cex5perm ≠ createContentHash cex5 :=
  ⟨by simp [cex5perm, List.reverse_perm], rfl, by decide⟩

/-- C5 (amended): the fingerprint is invariant under every permutation of
each question's options, and invariant under permutations of the questions
provided no two questions share the same normalized question text (the
counterexample above forces the distinctness proviso). -/
theorem C5_fingerprint_order_independence :
    (∀ a b : Question, a.question = b.question →
      a.correctAnswer = b.correctAnswer → a.options.Perm b.options →
      questionKey a = questionKey b) ∧
    (∀ q q' : Quiz, q'.title = q.title →
      (q'.questions.map questionKey).Perm (q.questions.map questionKey) →
      ((q.questions.map questionKey).map QuestionKey.question).Nodup →
      createContentHash q' = createContentHash q) :=
  ⟨questionKey_options_perm, createContentHash_perm⟩

theorem C5_fingerprint_order_independence_witness :
    createContentHash w5perm = createContentHash w5base := by
  refine C5_fingerprint_order_independence.2 w5base w5perm rfl ?_ (by decide)
  show (w5base.questions.reverse.map questionKey).Perm
    (w5base.questions.map questionKey)
  rw [List.map_reverse]
  exact List.reverse_perm _

/-! ## The fuzzy similarity tier -/

/-- C9: the fuzzy comparison is skipped (no duplicate verdict) when the
question counts differ by more than one; otherwise the pair is judged
duplicate exactly when the matched-question count is at least `0.8` times
the smaller question count; and the two Scenario-F quizzes (4 vs 5
questions, 2 matches) both survive deduplication. -/
theorem C9_fuzzy_similarity (q1 q2 : Quiz) :
    (1 < dist q1.questions.length q2.questions.length →
      similarVerdict q1 q2 = false) ∧
    (dist q1.questions.length q2.questions.length ≤ 1 →
      (similarVerdict q1 q2 = true ↔
        4 * min q1.questions.length q2.questions.length ≤
          5 * matchCount q1.questions q2.questions)) ∧
    (FileStorage.removeDuplicateQuizzes [scenF1, scenF2]).survivors
      = [scenF1, scenF2] := by
  refine ⟨fun h => ?_, fun h => ?_, by decide⟩
  · simp [similarVerdict, h]
  · rw [similarVerdict, if_neg (by omega)]
    exact decide_eq_true_iff

theorem C9_fuzzy_similarity_witness :
    similarVerdict scenF1 scenF2 = true ↔
      4 * min scenF1.questions.length scenF2.questions.length ≤
        5 * matchCount scenF1.questions scenF2.questions :=
  (C9_fuzzy_similarity scenF1 scenF2).2.1 (by decide)

/-! ## Association-list facts -/

theorem alookup_mem [DecidableEq κ] {k : κ} {v : β} :
    ∀ {m : List (κ × β)}, alookup k m = some v → (k, v) ∈ m := by
  intro m
  induction m with
  | nil => intro h; simp [alookup] at h
  | cons p r ih =>
    intro h
    rcases p with ⟨k', v'⟩
    by_cases hk : k' = k
    · subst hk
      simp only [alookup, if_pos rfl] at h
      cases h
      exact List.mem_cons_self _ _
    · simp only [alookup, if_neg hk] at h
      exact List.mem_cons_of_mem _ (ih h)

theorem mem_aupdate [DecidableEq κ] {k : κ} {x : β} {p : κ × β} :
    ∀ {m : List (κ × β)}, p ∈ aupdate k x m → p = (k, x) ∨ p ∈ m := by
  intro m
  induction m with
  | nil => intro h; simp [aupdate] at h
  | cons q r ih =>
    intro h
    rcases q with ⟨k', v'⟩
    by_cases hk : k' = k
    · subst hk
      simp only [aupdate, if_pos rfl] at h
      rcases List.mem_cons.mp h with rfl | h
      · exact Or.inl (by simp)
      · exact Or.inr (List.mem_cons_of_mem _ h)
    · simp only [aupdate, if_neg hk] at h
      rcases List.mem_cons.mp h with rfl | h
      · exact Or.inr (List.mem_cons_self _ _)
      · rcases ih h with h | h
        · exact Or.inl h
        · exact Or.inr (List.mem_cons_of_mem _ h)

/-! ## Step lemmas for the dedup passes -/

theorem p1Step_new {m : List (ContentHash × Quiz)} {st : PassState} {q : Quiz}
    (h : alookup (createContentHash q) m = none) :
    FileStorage.p1Step (m, st) q
      = (m ++ [(createContentHash q, q)],
         { st with keep := insert q.id st.keep }) := by
  simp only [FileStorage.p1Step, h]

theorem p1Step_found {m : List (ContentHash × Quiz)} {st : PassState}
    {q ex : Quiz} (h : alookup (createContentHash q) m = some ex)
    (hne : ¬ q.id = ex.id) :
    FileStorage.p1Step (m, st) q
      = if keepNew q ex then
          (aupdate (createContentHash q) q m,
            ⟨insert q.id (st.keep.erase ex.id), st.removed ++ [ex]⟩)
        else (m, { st with removed := st.removed ++ [q] }) := by
  simp only [FileStorage.p1Step, h, hne, if_false]

theorem p2Step_skip {m : List (String × Quiz)} {st : PassState} {q : Quiz}
    (h : q.id ∉ st.keep ∨ uidTruthy q.uniqueId = false) :
    FileStorage.p2Step (m, st) q = (m, st) := by
  simp only [FileStorage.p2Step, if_pos h]

theorem p2Step_new {m : List (String × Quiz)} {st : PassState} {q : Quiz}
    (h1 : q.id ∈ st.keep) (h2 : uidTruthy q.uniqueId = true)
    (h : alookup (uidStr q) m = none) :
    FileStorage.p2Step (m, st) q = (m ++ [(uidStr q, q)], st) := by
  have hcond : ¬ (q.id ∉ st.keep ∨ uidTruthy q.uniqueId = false) := by
    simp [h1, h2]
  simp only [FileStorage.p2Step, if_neg hcond, h]

theorem p2Step_found {m : List (String × Quiz)} {st : PassState} {q ex : Quiz}
    (h1 : q.id ∈ st.keep) (h2 : uidTruthy q.uniqueId = true)
    (h : alookup (uidStr q) m = some ex) (hne : ¬ q.id = ex.id) :
    FileStorage.p2Step (m, st) q
      = if keepNew q ex then
          (aupdate (uidStr q) q m,
            ⟨st.keep.erase ex.id, st.removed ++ [ex]⟩)
        else (m, ⟨st.keep.erase q.id, st.removed ++ [q]⟩) := by
  have hcond : ¬ (q.id ∉ st.keep ∨ uidTruthy q.uniqueId = false) := by
    simp [h1, h2]
  simp only [FileStorage.p2Step, if_neg hcond, h, hne, if_false]

/-! ## Two-element deduplication (the Precedence Rule in action) -/

theorem dedup_pair (ex q : Quiz) (hid : ex.id ≠ q.id)
    (hh : createContentHash ex = createContentHash q) :
    (FileStorage.removeDuplicateQuizzes [ex, q]).survivors
      = if keepNew q ex then [q] else [ex] := by
  have hqe : ¬ q.id = ex.id := fun h => hid h.symm
  have hl : ¬ ([ex, q].length ≤ 1) := by simp
  have halk : alookup (createContentHash q) [(createContentHash ex, ex)]
      = some ex := by simp [alookup, hh]
  have e1 : FileStorage.p1Step ([], ⟨(∅ : Finset Nat), []⟩) ex
      = ([(createContentHash ex, ex)], ⟨insert ex.id ∅, []⟩) := rfl
  by_cases hk : keepNew q ex
  · -- the incoming q displaces ex
    have h1 : (FileStorage.pass1 [ex, q]).2 = ⟨insert q.id ∅, [ex]⟩ := by
      have e2 := @p1Step_found _ ⟨insert ex.id ∅, []⟩ _ _ halk hqe
      rw [if_pos hk] at e2
      simp only [FileStorage.pass1, List.foldl_cons, List.foldl_nil, e1, e2]
      simp [Finset.erase_insert_eq_erase, Finset.erase_empty]
    have hexskip : FileStorage.p2Step ([], ⟨insert q.id ∅, [ex]⟩) ex
        = ([], ⟨insert q.id ∅, [ex]⟩) :=
      p2Step_skip (Or.inl (by simp [hid]))
    have h2 : (FileStorage.pass2 [ex, q] ⟨insert q.id ∅, [ex]⟩).2
        = ⟨insert q.id ∅, [ex]⟩ := by
      by_cases hu : uidTruthy q.uniqueId
      · have hq2 := @p2Step_new [] ⟨insert q.id ∅, [ex]⟩ q (by simp) hu rfl
        simp only [FileStorage.pass2, List.foldl_cons, List.foldl_nil,
          hexskip, hq2]
      · have hq2 := @p2Step_skip [] ⟨insert q.id ∅, [ex]⟩ q (Or.inr (by simpa using hu))
        simp only [FileStorage.pass2, List.foldl_cons, List.foldl_nil,
          hexskip, hq2]
    have h3 : FileStorage.pass3 [ex, q] ⟨insert q.id ∅, [ex]⟩
        = ⟨insert q.id ∅, [ex]⟩ := by
      have hbt : FileStorage.buildTitleMap (insert q.id ∅) [ex, q]
          = [(normTitle q, [q])] := by
        simp [FileStorage.buildTitleMap, FileStorage.addToGroup, hid]
      rw [FileStorage.pass3, hbt]
      simp [FileStorage.p3Groups]
    rw [if_pos hk]
    simp only [FileStorage.removeDuplicateQuizzes, if_neg hl, h1, h2, h3]
    simp [hid, hqe]
  · -- the stored ex survives, q is recorded as a duplicate
    have h1 : (FileStorage.pass1 [ex, q]).2 = ⟨insert ex.id ∅, [q]⟩ := by
      have e2 := @p1Step_found _ ⟨insert ex.id ∅, []⟩ _ _ halk hqe
      rw [if_neg hk] at e2
      simp only [FileStorage.pass1, List.foldl_cons, List.foldl_nil, e1, e2,
        List.nil_append]
    have h2 : (FileStorage.pass2 [ex, q] ⟨insert ex.id ∅, [q]⟩).2
        = ⟨insert ex.id ∅, [q]⟩ := by
      have hqskip : FileStorage.p2Step ([], ⟨insert ex.id ∅, [q]⟩) q
          = ([], ⟨insert ex.id ∅, [q]⟩) :=
        p2Step_skip (Or.inl (by simp [hqe]))
      by_cases hv : uidTruthy ex.uniqueId
      · have hex2 := @p2Step_new [] ⟨insert ex.id ∅, [q]⟩ ex (by simp) hv rfl
        have hqskip2 : FileStorage.p2Step ([(uidStr ex, ex)],
            ⟨insert ex.id ∅, [q]⟩) q = ([(uidStr ex, ex)], ⟨insert ex.id ∅, [q]⟩) :=
          p2Step_skip (Or.inl (by simp [hqe]))
        simp only [FileStorage.pass2, List.foldl_cons, List.foldl_nil,
          List.nil_append, hex2, hqskip2]
      · have hex2 := @p2Step_skip [] ⟨insert ex.id ∅, [q]⟩ ex (Or.inr (by simpa using hv))
        simp only [FileStorage.pass2, List.foldl_cons, List.foldl_nil,
          hex2, hqskip]
    have h3 : FileStorage.pass3 [ex, q] ⟨insert ex.id ∅, [q]⟩
        = ⟨insert ex.id ∅, [q]⟩ := by
      have hbt : FileStorage.buildTitleMap (insert ex.id ∅) [ex, q]
          = [(normTitle ex, [ex])] := by
        simp [FileStorage.buildTitleMap, FileStorage.addToGroup, hqe]
      rw [FileStorage.pass3, hbt]
      simp [FileStorage.p3Groups]
    rw [if_neg hk]
    simp only [FileStorage.removeDuplicateQuizzes, if_neg hl, h1, h2, h3]
    simp [hid, hqe]

/-! ## C6: version vs createdAt precedence -/

/-- C6: counterexample — `c6a` and `c6b` are content-equivalent and both
carry defined versions with `c6a`'s strictly greater, yet deduplication
retains the lower-version `c6b`: its strictly later `createdAt` overrides the
version comparison, which the claim says applies first. -/
theorem C6_counterexample :
    vtruthy c6a.version = true ∧ vtruthy c6b.version = true ∧
    vnum c6b < vnum c6a ∧
    createContentHash c6a = createContentHash c6b ∧
    (FileStorage.removeDuplicateQuizzes [c6a, c6b]).survivors = [c6b] := by
  decide

/-- C6 (amended): between two equivalent quizzes the later-encountered one is
retained iff its version is strictly greater (both versions defined) *or* its
`createdAt` is strictly later (both dates defined) — the two comparisons are
tried as a disjunction, so a strictly later `createdAt` wins even against a
strictly greater version; only when neither disjunct fires is the
first-encountered quiz retained. -/
theorem C6_precedence (ex q : Quiz) (hid : ex.id ≠ q.id)
    (hh : createContentHash ex = createContentHash q) :
    (FileStorage.removeDuplicateQuizzes [ex, q]).survivors
      = if (vtruthy q.version && vtruthy ex.version
            && decide (vnum ex < vnum q))
          || (q.createdAt.isSome && ex.createdAt.isSome
            && decide (tnum ex < tnum q)) then [q] else [ex] :=
  dedup_pair ex q hid hh

theorem C6_precedence_witness :
    (FileStorage.removeDuplicateQuizzes [c6a, c6b]).survivors
      = if (vtruthy c6b.version && vtruthy c6a.version
            && decide (vnum c6a < vnum c6b))
          || (c6b.createdAt.isSome && c6a.createdAt.isSome
            && decide (tnum c6a < tnum c6b)) then [c6b] else [c6a] :=
  C6_precedence c6a c6b (by decide) (by decide)

/-! ## C7: (a)symmetry of the Precedence Rule -/

/-- C7: counterexample — the Precedence Rule is argument-order dependent:
`c7a` has the strictly greater version, `c7b` the strictly later `createdAt`,
and each argument order picks a different winner. -/
theorem C7_counterexample :
    precedence c7a c7b ≠ precedence c7b c7a := by decide

/-- C7 (amended): the Precedence Rule is argument-order independent on pairs
where both versions are defined and distinct and the `createdAt` comparison
(when both dates are present) agrees with the version comparison; there it
deterministically picks the strictly-greater-version quiz.  When the two
comparisons conflict (the counterexample) the argument order decides. -/
theorem C7_precedence_symmetric (a b : Quiz)
    (hva : vtruthy a.version = true) (hvb : vtruthy b.version = true)
    (hne : vnum a ≠ vnum b)
    (hagree : a.createdAt.isSome = true → b.createdAt.isSome = true →
      (vnum b < vnum a ↔ tnum b < tnum a)) :
    precedence a b = precedence b a ∧
    precedence a b = (if vnum b < vnum a then a else b) := by
  rcases Nat.lt_or_ge (vnum b) (vnum a) with h | h
  · have h1 : ¬ vnum a < vnum b := by omega
    have hkab : keepNew a b = true := by
      simp [keepNew, hva, hvb, h]
    have hkba : keepNew b a = false := by
      cases hda : a.createdAt.isSome <;> cases hdb : b.createdAt.isSome <;>
        simp [keepNew, hva, hvb, h1, hda, hdb]
      have := (hagree hda hdb).mp h
      omega
    refine ⟨?_, ?_⟩ <;> simp [precedence, hkab, hkba, h]
  · have hba : vnum b > vnum a := by omega
    have h1 : ¬ vnum b < vnum a := by omega
    have hkba : keepNew b a = true := by
      simp [keepNew, hva, hvb, hba]
    have hkab : keepNew a b = false := by
      cases hda : a.createdAt.isSome <;> cases hdb : b.createdAt.isSome <;>
        simp [keepNew, hva, hvb, h1, hda, hdb]
      have h2 : ¬ tnum b < tnum a := fun hc => h1 ((hagree hda hdb).mpr hc)
      omega
    refine ⟨?_, ?_⟩ <;> simp [precedence, hkab, hkba, h1]

theorem C7_precedence_symmetric_witness :
    precedence c6a c10c = precedence c10c c6a :=
  (C7_precedence_symmetric c6a c10c (by decide) (by decide) (by decide)
    (by decide)).1

/-! ## C2: the upsert path of syncQuizzes -/

theorem updateQuizList_filter (q ex : Quiz) :
    ∀ l : List Quiz, (l.map Quiz.id).Nodup → ex ∈ l →
      (FileStorage.updateQuizList ex.id q l).filter
          (fun r => decide (r.id = ex.id)) = [FileStorage.mkUpdated q ex] := by
  intro l
  induction l with
  | nil => intro _ h; simp at h
  | cons hd t ih =>
    intro hnd hmem
    have hnd' := hnd
    rw [List.map_cons, List.nodup_cons] at hnd'
    by_cases hid : hd.id = ex.id
    · have hex : hd = ex := by
        rcases List.mem_cons.mp hmem with rfl | hmt
        · rfl
        · exact absurd (hid ▸ List.mem_map.mpr ⟨ex, hmt, rfl⟩) hnd'.1
      subst hex
      have hnil : t.filter (fun r => decide (r.id = hd.id)) = [] := by
        rw [List.filter_eq_nil_iff]
        intro r hr
        simp only [decide_eq_true_eq]
        intro hcon
        exact hnd'.1 (hcon ▸ List.mem_map.mpr ⟨r, hr, rfl⟩)
      simp [FileStorage.updateQuizList, FileStorage.mkUpdated, hnil]
    · simp only [FileStorage.updateQuizList, if_neg hid]
      rw [List.filter_cons_of_neg (by simp [hid])]
      have hmt : ex ∈ t := by
        rcases List.mem_cons.mp hmem with rfl | hmt
        · exact absurd rfl hid
        · exact hmt
      exact ih hnd'.2 hmt

/-- C2 (amended): for a filtered quiz whose `stableId` is already present in
the shared store, the stored record is replaced *unconditionally* — no
Precedence-Rule check is made — and the written record carries every field of
the incoming quiz except for `version`, which equals the previously stored
version plus 1 (or 1 when the stored version is falsy) regardless of the
incoming `version`; when the `stableId` is absent the quiz is inserted. -/
theorem C2_upsert (now : Nat) (s : FileStorage.StoreState) (q : Quiz)
    (hq : uidTruthy q.uniqueId = true)
    (hnd : (s.quizzes.map Quiz.id).Nodup) :
    (∀ ex, FileStorage.getQuizByUniqueId s (uidStr q) = some ex →
      (FileStorage.upsertStep now s q).quizzes.filter
          (fun r => decide (r.id = ex.id)) = [FileStorage.mkUpdated q ex] ∧
      (FileStorage.mkUpdated q ex).version
        = some (if vtruthy ex.version then vnum ex + 1 else 1) ∧
      (FileStorage.mkUpdated q ex).title = q.title ∧
      (FileStorage.mkUpdated q ex).questions = q.questions ∧
      (FileStorage.mkUpdated q ex).uniqueId = q.uniqueId) ∧
    (FileStorage.getQuizByUniqueId s (uidStr q) = none →
      (FileStorage.upsertStep now s q).quizzes = s.quizzes ++
        [{ q with
            id := s.nextId
            version := some (if vtruthy q.version then vnum q else 1)
            createdAt := some (if q.createdAt.isSome then tnum q else now) }]) := by
  constructor
  · intro ex hex
    refine ⟨?_, rfl, rfl, rfl, rfl⟩
    have hq' : ¬ uidTruthy q.uniqueId = false := by simp [hq]
    simp only [FileStorage.upsertStep, if_neg hq', hex]
    exact updateQuizList_filter q ex s.quizzes hnd
      (List.mem_of_find?_eq_some hex)
  · intro hnone
    have hq' : ¬ uidTruthy q.uniqueId = false := by simp [hq]
    simp only [FileStorage.upsertStep, if_neg hq', hnone,
      FileStorage.createQuiz, if_pos hq]

/-- C2: counterexample — the incoming `c2inc` loses the Precedence Rule
against the stored `c2stored` (smaller version, earlier creation), yet the
sync call still replaces the stored record with the incoming fields, writing
`version = storedVersion + 1 = 6`. -/
theorem C2_counterexample :
    keepNew c2inc c2stored = false ∧
    (FileStorage.syncQuizzes 0 [c2inc] ⟨[c2stored], 2⟩).2.quizzes
      = [{ c2inc with id := 1, version := some 6 }] := by decide

theorem C2_upsert_witness :
    (FileStorage.upsertStep 0 ⟨[c2stored], 2⟩ c2inc).quizzes.filter
        (fun r => decide (r.id = c2stored.id))
      = [FileStorage.mkUpdated c2inc c2stored] :=
  ((C2_upsert 0 ⟨[c2stored], 2⟩ c2inc (by decide) (by decide)).1 c2stored
    (by decide)).1

/-! ## C1: the Filtered step and stableId assignment -/

/-- C1: counterexample — a public quiz submitted to the server's sync call
without a `stableId` is silently skipped, not assigned a fresh one: the
response is empty instead of containing one public quiz with a freshly
assigned `stableId`. -/
theorem C1_counterexample :
    c1quiz.isPublic = true ∧ uidTruthy c1quiz.uniqueId = false ∧
    (FileStorage.syncQuizzes 0 [c1quiz] ⟨[], 1⟩).1 = [] := by decide

/-- C1 (amended): the Filtered step retains only public quizzes, but the
fresh-`stableId` assignment happens in the client's `preparedQuizzes` step
before submission; the server *skips* any public quiz still lacking a
`stableId`.  Through the client sync flow, submitting one public quiz with no
`stableId` yields a response containing exactly that quiz with the freshly
generated `stableId` (and a shared-store-assigned `version`/`createdAt`). -/
theorem C1_prepared_sync (q : Quiz) (fresh : Nat → String) (now : Nat)
    (hp : q.isPublic = true) (hu : uidTruthy q.uniqueId = false)
    (hf : fresh 0 ≠ "") :
    preparedQuizzes fresh [q] = [{ q with uniqueId := some (fresh 0) }] ∧
    (∀ p ∈ preparedQuizzes fresh [q], p.isPublic = true) ∧
    (FileStorage.syncQuizzes now (preparedQuizzes fresh [q]) ⟨[], 1⟩).1
      = [{ q with
            id := 1
            uniqueId := some (fresh 0)
            version := some (if vtruthy q.version then vnum q else 1)
            createdAt := some (if q.createdAt.isSome then tnum q else now) }] := by
  have hu' : uidTruthy q.uniqueId = false := hu
  have hprep : preparedQuizzes fresh [q]
      = [{ q with uniqueId := some (fresh 0) }] := by
    simp [preparedQuizzes, hp, hu, List.enum]
  refine ⟨hprep, ?_, ?_⟩
  · rw [hprep]
    intro p hp'
    rw [List.mem_singleton] at hp'
    subst hp'
    exact hp
  · rw [hprep]
    have hft : uidTruthy (some (fresh 0)) = true := by
      simp [uidTruthy, hf]
    simp [FileStorage.syncQuizzes, FileStorage.upsertStep, hft, hp,
      FileStorage.getQuizByUniqueId, FileStorage.createQuiz,
      FileStorage.privateDeleteStep, FileStorage.deletePrivateQuizzes,
      FileStorage.removeDuplicateQuizzes, FileStorage.getPublicQuizzes,
      vnum, tnum]

theorem C1_prepared_sync_witness :
    (FileStorage.syncQuizzes 33
        (preparedQuizzes (fun _ => "uuid-1") [c1quiz]) ⟨[], 1⟩).1
      = [{ c1quiz with
            id := 1
            uniqueId := some "uuid-1"
            version := some (if vtruthy c1quiz.version then vnum c1quiz else 1)
            createdAt := some (if c1quiz.createdAt.isSome then tnum c1quiz
              else 33) }] :=
  (C1_prepared_sync c1quiz (fun _ => "uuid-1") 33 (by decide) (by decide)
    (by decide)).2.2

/-! ## C10: scope of the content-fingerprint tier -/

/-- C10: counterexample — in `FileStorage`'s deduplicator (the one
`syncQuizzes` runs) the content-hash pass runs first over *all* quizzes:
`c10a` carries stableId "A", distinct from `c10b`'s "B", yet it is removed
solely because the two fingerprints coincide. -/
theorem C10_counterexample :
    uidTruthy c10a.uniqueId = true ∧ uidTruthy c10b.uniqueId = true ∧
    c10a.uniqueId ≠ c10b.uniqueId ∧
    createContentHash c10a = createContentHash c10b ∧
    (FileStorage.removeDuplicateQuizzes [c10a, c10b]).removed = [c10a] := by
  decide

theorem memContentPass_removed_aux :
    ∀ (l : List Quiz) (m : List (ContentHash × Quiz)) (st : PassState),
      (∀ p ∈ m, uidTruthy p.2.uniqueId = false) →
      ∀ r ∈ (l.foldl MemStorage.p2Step (m, st)).2.removed,
        r ∈ st.removed ∨ uidTruthy r.uniqueId = false := by
  intro l
  induction l with
  | nil => intro m st _ r hr; exact Or.inl hr
  | cons q t ih =>
    intro m st hm r hr
    rw [List.foldl_cons] at hr
    by_cases h1 : q.id ∉ st.keep
    · rw [show MemStorage.p2Step (m, st) q = (m, st) by
        simp only [MemStorage.p2Step, if_pos h1]] at hr
      exact ih m st hm r hr
    · by_cases h2 : uidTruthy q.uniqueId = true
      · rw [show MemStorage.p2Step (m, st) q = (m, st) by
          simp only [MemStorage.p2Step, if_neg h1, if_pos h2]] at hr
        exact ih m st hm r hr
      · have h2' : uidTruthy q.uniqueId = false := by
          simpa using h2
        rcases halk : alookup (createContentHash q) m with _ | ex
        · rw [show MemStorage.p2Step (m, st) q
              = (m ++ [(createContentHash q, q)], st) by
            simp [MemStorage.p2Step, if_neg h1, h2', halk]] at hr
          refine ih _ st ?_ r hr
          intro p hp
          rcases List.mem_append.mp hp with hp | hp
          · exact hm p hp
          · rw [List.mem_singleton] at hp
            subst hp
            exact h2'
        · have hex : uidTruthy ex.uniqueId = false :=
            hm _ (alookup_mem halk)
          by_cases hkn : keepNew q ex
          · rw [show MemStorage.p2Step (m, st) q
                = (aupdate (createContentHash q) q m,
                   ⟨insert q.id (st.keep.erase ex.id),
                    st.removed ++ [ex]⟩) by
              simp [MemStorage.p2Step, if_neg h1, h2', halk, hkn]] at hr
            have := ih (aupdate (createContentHash q) q m)
              ⟨insert q.id (st.keep.erase ex.id), st.removed ++ [ex]⟩
              (fun p hp => by
                rcases mem_aupdate hp with rfl | hp
                · exact h2'
                · exact hm p hp) r hr
            rcases this with hmem | hfls
            · rcases List.mem_append.mp hmem with hmem | hmem
              · exact Or.inl hmem
              · rw [List.mem_singleton] at hmem
                subst hmem
                exact Or.inr hex
            · exact Or.inr hfls
          · rw [show MemStorage.p2Step (m, st) q
                = (m, ⟨st.keep.erase q.id, st.removed ++ [q]⟩) by
              simp [MemStorage.p2Step, if_neg h1, h2', halk, hkn]] at hr
            have := ih m ⟨st.keep.erase q.id, st.removed ++ [q]⟩ hm r hr
            rcases this with hmem | hfls
            · rcases List.mem_append.mp hmem with hmem | hmem
              · exact Or.inl hmem
              · rw [List.mem_singleton] at hmem
                subst hmem
                exact Or.inr h2'
            · exact Or.inr hfls

/-- C10 (amended): the fingerprint tier is restricted to quizzes without a
`stableId` only in `MemStorage`'s deduplicator: its content pass never
removes a quiz whose `uniqueId` is truthy.  `FileStorage`'s deduplicator
(see the counterexample) applies the fingerprint pass to all quizzes first,
so there a stableId-carrying quiz *can* be removed by fingerprint equality
with a quiz holding a different stableId. -/
theorem C10_mem_content_pass (l : List Quiz) (st : PassState) (r : Quiz)
    (hr : r ∈ (MemStorage.contentPass l st).2.removed) :
    r ∈ st.removed ∨ uidTruthy r.uniqueId = false :=
  memContentPass_removed_aux l [] st (by simp) r hr

theorem C10_mem_content_pass_witness :
    c10d ∈ ([] : List Quiz) ∨ uidTruthy c10d.uniqueId = false :=
  C10_mem_content_pass [c10c, c10d] ⟨{3, 4}, []⟩ c10d (by decide)

/-! ## C3: privacy of the sync call -/

theorem updateQuizList_count_le (u0 : Option String) (i : Nat) (patch : Quiz)
    (hpatch : patch.uniqueId ≠ u0) :
    ∀ l : List Quiz,
      ((FileStorage.updateQuizList i patch l).filter
          (fun r => decide (r.uniqueId = u0))).length
        ≤ (l.filter (fun r => decide (r.uniqueId = u0))).length := by
  intro l
  induction l with
  | nil => simp [FileStorage.updateQuizList]
  | cons hd t ih =>
    by_cases hid : hd.id = i
    · simp only [FileStorage.updateQuizList, if_pos hid]
      rw [List.filter_cons_of_neg (by simp [FileStorage.mkUpdated, hpatch])]
      by_cases hhd : hd.uniqueId = u0
      · rw [List.filter_cons_of_pos (by simp [hhd])]
        exact Nat.le_succ_of_le (Nat.le_refl _)
      · rw [List.filter_cons_of_neg (by simp [hhd])]
    · simp only [FileStorage.updateQuizList, if_neg hid]
      by_cases hhd : hd.uniqueId = u0
      · rw [List.filter_cons_of_pos (by simp [hhd]),
          List.filter_cons_of_pos (by simp [hhd])]
        exact Nat.succ_le_succ ih
      · rw [List.filter_cons_of_neg (by simp [hhd]),
          List.filter_cons_of_neg (by simp [hhd])]
        exact ih

theorem upsertStep_count_le (now : Nat) (u0 : Option String)
    (s : FileStorage.StoreState) (q : Quiz) (hq : q.uniqueId ≠ u0) :
    (((FileStorage.upsertStep now s q).quizzes).filter
        (fun r => decide (r.uniqueId = u0))).length
      ≤ (s.quizzes.filter (fun r => decide (r.uniqueId = u0))).length := by
  by_cases hu : uidTruthy q.uniqueId = false
  · simp [FileStorage.upsertStep, hu]
  · have hu' : uidTruthy q.uniqueId = true := by simpa using hu
    rcases hex : FileStorage.getQuizByUniqueId s (uidStr q) with _ | ex
    · simp [FileStorage.upsertStep, hu, hex, FileStorage.createQuiz, hu',
        List.filter_append, hq]
    · simp only [FileStorage.upsertStep, if_neg hu, hex]
      exact updateQuizList_count_le u0 ex.id q hq s.quizzes

theorem upsert_fold_count_le (now : Nat) (u0 : Option String) :
    ∀ (pub : List Quiz) (s : FileStorage.StoreState),
      (∀ p ∈ pub, p.uniqueId ≠ u0) →
      (((pub.foldl (FileStorage.upsertStep now) s).quizzes).filter
          (fun r => decide (r.uniqueId = u0))).length
        ≤ (s.quizzes.filter (fun r => decide (r.uniqueId = u0))).length := by
  intro pub
  induction pub with
  | nil => intro s _; exact Nat.le_refl _
  | cons p t ih =>
    intro s hall
    rw [List.foldl_cons]
    exact Nat.le_trans
      (ih _ (fun r hr => hall r (List.mem_cons_of_mem _ hr)))
      (upsertStep_count_le now u0 s p (hall p (List.mem_cons_self _ _)))

theorem privateDeleteStep_count_le (u0 : Option String)
    (s : FileStorage.StoreState) (q : Quiz) :
    (((FileStorage.privateDeleteStep s q).quizzes).filter
        (fun r => decide (r.uniqueId = u0))).length
      ≤ (s.quizzes.filter (fun r => decide (r.uniqueId = u0))).length := by
  rw [FileStorage.privateDeleteStep]
  split
  · rcases hex : FileStorage.getQuizByUniqueId s (uidStr q) with _ | ex
    · exact Nat.le_refl _
    · simp only [FileStorage.deleteQuiz]
      exact List.Sublist.length_le
        (List.Sublist.filter _ (List.filter_sublist _))
  · exact Nat.le_refl _

theorem privateDelete_fold_count_le (u0 : Option String) :
    ∀ (batch : List Quiz) (s : FileStorage.StoreState),
      (((batch.foldl FileStorage.privateDeleteStep s).quizzes).filter
          (fun r => decide (r.uniqueId = u0))).length
        ≤ (s.quizzes.filter (fun r => decide (r.uniqueId = u0))).length := by
  intro batch
  induction batch with
  | nil => intro s; exact Nat.le_refl _
  | cons p t ih =>
    intro s
    rw [List.foldl_cons]
    exact Nat.le_trans (ih _) (privateDeleteStep_count_le u0 s p)

theorem privateDeleteStep_zero (s : FileStorage.StoreState) (b : Quiz)
    (hpriv : b.isPublic = false) (hu : uidTruthy b.uniqueId = true)
    (hone : (s.quizzes.filter
        (fun r => decide (r.uniqueId = b.uniqueId))).length ≤ 1) :
    (((FileStorage.privateDeleteStep s b).quizzes).filter
        (fun r => decide (r.uniqueId = b.uniqueId))).length = 0 := by
  have huid : some (uidStr b) = b.uniqueId := by
    rcases hbu : b.uniqueId with _ | u
    · rw [hbu] at hu; simp [uidTruthy] at hu
    · simp [uidStr, hbu]
  have hcond : b.isPublic = false ∧ uidTruthy b.uniqueId = true := ⟨hpriv, hu⟩
  rcases hex : FileStorage.getQuizByUniqueId s (uidStr b) with _ | ex
  · have hnone : ∀ r ∈ s.quizzes, ¬ (r.uniqueId = some (uidStr b)) := by
      intro r hr
      have := List.find?_eq_none.mp hex r hr
      simpa using this
    simp only [FileStorage.privateDeleteStep, if_pos hcond, hex]
    rw [List.length_eq_zero, List.filter_eq_nil_iff]
    intro r hr
    simp only [decide_eq_true_eq]
    intro hcon
    exact hnone r hr (by rw [hcon, ← huid])
  · have hexuid : ex.uniqueId = b.uniqueId := by
      have := List.find?_some hex
      rw [← huid]
      simpa using this
    have hexmem : ex ∈ s.quizzes.filter
        (fun r => decide (r.uniqueId = b.uniqueId)) :=
      List.mem_filter.mpr ⟨List.mem_of_find?_eq_some hex, by simp [hexuid]⟩
    have hsingle : s.quizzes.filter (fun r => decide (r.uniqueId = b.uniqueId))
        = [ex] := by
      rcases hflt : s.quizzes.filter
          (fun r => decide (r.uniqueId = b.uniqueId)) with _ | ⟨a, rest⟩
      · rw [hflt] at hexmem; simp at hexmem
      · rcases rest with _ | ⟨a2, rest2⟩
        · rw [hflt] at hexmem
          rw [List.mem_singleton] at hexmem
          rw [hexmem]
          exact hflt
        · rw [hflt] at hone; simp at hone
    simp only [FileStorage.privateDeleteStep, if_pos hcond, hex,
      FileStorage.deleteQuiz]
    rw [List.length_eq_zero, List.filter_eq_nil_iff]
    intro r hr
    simp only [decide_eq_true_eq]
    intro hcon
    have hrq : r ∈ s.quizzes := List.mem_of_mem_filter hr
    have hrid : ¬ r.id = ex.id := by
      have := List.of_mem_filter hr
      simpa using this
    have : r ∈ s.quizzes.filter (fun r => decide (r.uniqueId = b.uniqueId)) :=
      List.mem_filter.mpr ⟨hrq, by simp [hcon]⟩
    rw [hsingle, List.mem_singleton] at this
    exact hrid (by rw [this])

theorem dedup_survivors_subset (l : List Quiz) :
    ∀ r ∈ (FileStorage.removeDuplicateQuizzes l).survivors, r ∈ l := by
  intro r hr
  rw [FileStorage.removeDuplicateQuizzes] at hr
  by_cases hl : l.length ≤ 1
  · rw [if_pos hl] at hr; exact hr
  · rw [if_neg hl] at hr
    exact List.mem_of_mem_filter hr

/-- C3: a sync batch containing a `visibility = false` record with a
`stableId` leaves the shared store (a) with only public records and (b) with
no record under that `stableId` — provided the store held at most one record
under it (store key uniqueness) and no public batch member shares it (the
claim's "unless a different public record shares the same id" proviso). -/
theorem C3_privacy (now : Nat) (batch : List Quiz)
    (s : FileStorage.StoreState) (b : Quiz) (hb : b ∈ batch)
    (hpriv : b.isPublic = false) (hu : uidTruthy b.uniqueId = true)
    (hone : (s.quizzes.filter
        (fun r => decide (r.uniqueId = b.uniqueId))).length ≤ 1)
    (hnopub : ∀ p ∈ batch, p.isPublic = true → p.uniqueId ≠ b.uniqueId) :
    (∀ r ∈ (FileStorage.syncQuizzes now batch s).2.quizzes,
      r.isPublic = true) ∧
    (∀ r ∈ (FileStorage.syncQuizzes now batch s).2.quizzes,
      r.uniqueId ≠ b.uniqueId) := by
  have hfinal : (FileStorage.syncQuizzes now batch s).2.quizzes
      = (FileStorage.removeDuplicateQuizzes
          (((batch.foldl FileStorage.privateDeleteStep
            ((batch.filter (·.isPublic)).foldl
              (FileStorage.upsertStep now) s)).quizzes).filter
                (·.isPublic))).survivors := rfl
  have h1 : ((((batch.filter (·.isPublic)).foldl
      (FileStorage.upsertStep now) s).quizzes).filter
        (fun r => decide (r.uniqueId = b.uniqueId))).length ≤ 1 := by
    refine Nat.le_trans (upsert_fold_count_le now b.uniqueId _ s ?_) hone
    intro p hp
    exact hnopub p (List.mem_of_mem_filter hp)
      (by simpa using List.of_mem_filter hp)
  obtain ⟨l₁, l₂, rfl⟩ := List.append_of_mem hb
  have hsplit : (l₁ ++ b :: l₂).foldl FileStorage.privateDeleteStep
      ((( l₁ ++ b :: l₂).filter (·.isPublic)).foldl
        (FileStorage.upsertStep now) s)
      = l₂.foldl FileStorage.privateDeleteStep
          (FileStorage.privateDeleteStep
            (l₁.foldl FileStorage.privateDeleteStep
              ((((l₁ ++ b :: l₂)).filter (·.isPublic)).foldl
                (FileStorage.upsertStep now) s)) b) := by
    rw [List.foldl_append, List.foldl_cons]
  have h2 : (((l₁.foldl FileStorage.privateDeleteStep
      ((((l₁ ++ b :: l₂)).filter (·.isPublic)).foldl
        (FileStorage.upsertStep now) s)).quizzes).filter
          (fun r => decide (r.uniqueId = b.uniqueId))).length ≤ 1 :=
    Nat.le_trans (privateDelete_fold_count_le b.uniqueId l₁ _) h1
  have h3 := privateDeleteStep_zero _ b hpriv hu h2
  have h4 : ((((l₁ ++ b :: l₂).foldl FileStorage.privateDeleteStep
      ((((l₁ ++ b :: l₂)).filter (·.isPublic)).foldl
        (FileStorage.upsertStep now) s)).quizzes).filter
          (fun r => decide (r.uniqueId = b.uniqueId))).length = 0 := by
    rw [hsplit]
    exact Nat.le_zero.mp
      (Nat.le_trans (privateDelete_fold_count_le b.uniqueId l₂ _)
        (Nat.le_of_eq h3))
  have hnomem : ∀ r ∈ ((l₁ ++ b :: l₂).foldl FileStorage.privateDeleteStep
      ((((l₁ ++ b :: l₂)).filter (·.isPublic)).foldl
        (FileStorage.upsertStep now) s)).quizzes,
      ¬ (r.uniqueId = b.uniqueId) := by
    intro r hr hcon
    have : r ∈ (((l₁ ++ b :: l₂).foldl FileStorage.privateDeleteStep
        ((((l₁ ++ b :: l₂)).filter (·.isPublic)).foldl
          (FileStorage.upsertStep now) s)).quizzes).filter
            (fun r => decide (r.uniqueId = b.uniqueId)) :=
      List.mem_filter.mpr ⟨hr, by simp [hcon]⟩
    rw [List.length_eq_zero] at h4
    rw [h4] at this
    simp at this
  constructor
  · intro r hr
    rw [hfinal] at hr
    have := dedup_survivors_subset _ r hr
    simpa using List.of_mem_filter this
  · intro r hr
    rw [hfinal] at hr
    have := dedup_survivors_subset _ r hr
    exact hnomem r (List.mem_of_mem_filter this)

theorem C3_privacy_witness :
    (∀ r ∈ (FileStorage.syncQuizzes 0 [c3priv] ⟨[c3stored], 2⟩).2.quizzes,
      r.isPublic = true) ∧
    (∀ r ∈ (FileStorage.syncQuizzes 0 [c3priv] ⟨[c3stored], 2⟩).2.quizzes,
      r.uniqueId ≠ c3priv.uniqueId) :=
  C3_privacy 0 [c3priv] ⟨[c3stored], 2⟩ c3priv (by decide) (by decide)
    (by decide) (by decide) (by decide)

/-! ## More association-list facts -/

theorem alookup_eq_none_iff [DecidableEq κ] {k : κ} :
    ∀ {m : List (κ × β)}, alookup k m = none ↔ k ∉ m.map Prod.fst := by
  intro m
  induction m with
  | nil => simp [alookup]
  | cons p r ih =>
    rcases p with ⟨k', v⟩
    by_cases hk : k' = k
    · subst hk
      simp [alookup]
    · have hred : alookup k ((k', v) :: r) = alookup k r := by
        simp [alookup, hk]
      rw [hred, ih, List.map_cons, List.mem_cons, not_or]
      constructor
      · intro h
        exact ⟨fun hc => hk hc.symm, h⟩
      · exact And.right

theorem alookup_append_of_none [DecidableEq κ] {k : κ} :
    ∀ {m : List (κ × β)} (m' : List (κ × β)), alookup k m = none →
      alookup k (m ++ m') = alookup k m' := by
  intro m
  induction m with
  | nil => intro m' _; rfl
  | cons p r ih =>
    intro m' h
    rcases p with ⟨k', v⟩
    by_cases hk : k' = k
    · subst hk; simp [alookup] at h
    · simp only [List.cons_append, alookup, if_neg hk] at h ⊢
      exact ih m' h

theorem alookup_append_of_some [DecidableEq κ] {k : κ} {v : β} :
    ∀ {m : List (κ × β)} (m' : List (κ × β)), alookup k m = some v →
      alookup k (m ++ m') = some v := by
  intro m
  induction m with
  | nil => intro m' h; simp [alookup] at h
  | cons p r ih =>
    intro m' h
    rcases p with ⟨k', w⟩
    by_cases hk : k' = k
    · subst hk
      simp only [alookup, if_pos rfl] at h ⊢
      exact h
    · simp only [alookup, if_neg hk] at h ⊢
      exact ih m' h

theorem aupdate_keys [DecidableEq κ] (k : κ) (v : β) :
    ∀ m : List (κ × β), (aupdate k v m).map Prod.fst = m.map Prod.fst := by
  intro m
  induction m with
  | nil => rfl
  | cons p r ih =>
    rcases p with ⟨k', w⟩
    by_cases hk : k' = k
    · subst hk; simp [aupdate]
    · simp [aupdate, hk, ih]

theorem alookup_aupdate_self [DecidableEq κ] (k : κ) (v : β) :
    ∀ m : List (κ × β), k ∈ m.map Prod.fst →
      alookup k (aupdate k v m) = some v := by
  intro m
  induction m with
  | nil => intro h; simp at h
  | cons p r ih =>
    intro h
    rcases p with ⟨k', w⟩
    by_cases hk : k' = k
    · subst hk; simp [aupdate, alookup]
    · simp only [aupdate, if_neg hk, alookup]
      refine ih ?_
      rw [List.map_cons] at h
      rcases List.mem_cons.mp h with h' | h'
      · exact absurd h'.symm hk
      · exact h'

theorem alookup_aupdate_ne [DecidableEq κ] {k k' : κ} (hne : k' ≠ k) (v : β) :
    ∀ m : List (κ × β), alookup k' (aupdate k v m) = alookup k' m := by
  intro m
  induction m with
  | nil => rfl
  | cons p r ih =>
    rcases p with ⟨k'', w⟩
    by_cases hk : k'' = k
    · subst hk
      simp only [aupdate, if_pos rfl, alookup]
      rw [if_neg (fun h => hne h.symm), if_neg (fun h => hne h.symm)]
    · simp only [aupdate, if_neg hk, alookup]
      by_cases h2 : k'' = k'
      · rw [if_pos h2, if_pos h2]
      · rw [if_neg h2, if_neg h2]
        exact ih

theorem mem_aupdate_nodup [DecidableEq κ] {k : κ} {x : β} {p : κ × β} :
    ∀ {m : List (κ × β)}, (m.map Prod.fst).Nodup → p ∈ aupdate k x m →
      p = (k, x) ∨ (p ∈ m ∧ p.1 ≠ k) := by
  intro m
  induction m with
  | nil => intro _ h; simp [aupdate] at h
  | cons q r ih =>
    intro hnd hp
    rcases q with ⟨k', v'⟩
    rw [List.map_cons, List.nodup_cons] at hnd
    by_cases hk : k' = k
    · subst hk
      rw [show aupdate k' x ((k', v') :: r) = (k', x) :: r from by
        simp [aupdate]] at hp
      rcases List.mem_cons.mp hp with rfl | hp
      · exact Or.inl (by simp)
      · refine Or.inr ⟨List.mem_cons_of_mem _ hp, ?_⟩
        intro hcon
        exact hnd.1 (hcon ▸ List.mem_map.mpr ⟨p, hp, rfl⟩)
    · rw [show aupdate k x ((k', v') :: r) = (k', v') :: aupdate k x r from by
        simp [aupdate, hk]] at hp
      rcases List.mem_cons.mp hp with rfl | hp
      · exact Or.inr ⟨List.mem_cons_self _ _, hk⟩
      · rcases ih hnd.2 hp with h | ⟨hmem, hne⟩
        · exact Or.inl h
        · exact Or.inr ⟨List.mem_cons_of_mem _ hmem, hne⟩

theorem mem_aupdate_of_ne [DecidableEq κ] {k : κ} {x : β} {p : κ × β}
    (hne : p.1 ≠ k) :
    ∀ {m : List (κ × β)}, p ∈ m → p ∈ aupdate k x m := by
  intro m
  induction m with
  | nil => intro h; simp at h
  | cons q r ih =>
    intro hp
    rcases q with ⟨k', v'⟩
    by_cases hk : k' = k
    · subst hk
      rw [show aupdate k' x ((k', v') :: r) = (k', x) :: r from by
        simp [aupdate]]
      rcases List.mem_cons.mp hp with rfl | hp
      · exact absurd rfl hne
      · exact List.mem_cons_of_mem _ hp
    · rw [show aupdate k x ((k', v') :: r) = (k', v') :: aupdate k x r from by
        simp [aupdate, hk]]
      rcases List.mem_cons.mp hp with rfl | hp
      · exact List.mem_cons_self _ _
      · exact List.mem_cons_of_mem _ (ih hp)

theorem mem_aupdate_self [DecidableEq κ] {k : κ} {x : β} :
    ∀ {m : List (κ × β)}, k ∈ m.map Prod.fst → (k, x) ∈ aupdate k x m := by
  intro m
  induction m with
  | nil => intro h; simp at h
  | cons q r ih =>
    intro h
    rcases q with ⟨k', v'⟩
    by_cases hk : k' = k
    · subst hk
      simp [aupdate]
    · simp only [aupdate, if_neg hk]
      refine List.mem_cons_of_mem _ (ih ?_)
      rw [List.map_cons] at h
      rcases List.mem_cons.mp h with h' | h'
      · exact absurd h'.symm hk
      · exact h'

/-! ## Small utilities -/

theorem uidStr_some {a : Quiz} (ha : uidTruthy a.uniqueId = true) :
    a.uniqueId = some (uidStr a) := by
  rcases h : a.uniqueId with _ | u
  · rw [h] at ha; simp [uidTruthy] at ha
  · simp [uidStr, h]

theorem uidStr_eq_iff {a b : Quiz} (ha : uidTruthy a.uniqueId = true)
    (hb : uidTruthy b.uniqueId = true) :
    uidStr a = uidStr b ↔ a.uniqueId = b.uniqueId := by
  constructor
  · intro h
    rw [uidStr_some ha, uidStr_some hb, h]
  · intro h
    simp [uidStr, h]

theorem pairwise_of_length_le_one {R : α → α → Prop} {l : List α}
    (h : l.length ≤ 1) : l.Pairwise R := by
  rcases l with _ | ⟨a, t⟩
  · exact List.Pairwise.nil
  · rcases t with _ | ⟨b, t'⟩
    · simp
    · simp at h

theorem id_injOn {l : List Quiz} (hnd : (l.map Quiz.id).Nodup)
    {a b : Quiz} (ha : a ∈ l) (hb : b ∈ l) (hid : a.id = b.id) : a = b :=
  List.inj_on_of_nodup_map hnd ha hb hid

theorem stateCompl_flip {l : List Quiz} {st : PassState} {x : Quiz}
    (hc : StateCompl l st) (hx : x ∈ l)
    (hnd : (l.map Quiz.id).Nodup) :
    StateCompl l ⟨st.keep.erase x.id, st.removed ++ [x]⟩ := by
  constructor
  · intro q hq
    by_cases hqx : q = x
    · subst hqx
      simp
    · have hqid : q.id ≠ x.id := fun h => hqx (id_injOn hnd hq hx h)
      simp only [Finset.mem_erase, List.mem_append, List.mem_singleton,
        not_or]
      constructor
      · intro h
        exact ⟨(hc.1 q hq).mp h.2, hqx⟩
      · intro h
        exact ⟨hqid, (hc.1 q hq).mpr h.1⟩
  · intro r hr
    rcases List.mem_append.mp hr with hr | hr
    · exact hc.2 r hr
    · rw [List.mem_singleton] at hr
      subst hr
      exact hx

/-! ## Pass 1 invariant -/

theorem p1Inv_step {processed : List Quiz} {m : List (ContentHash × Quiz)}
    {st : PassState} {q : Quiz}
    (hnd : ((processed ++ [q]).map Quiz.id).Nodup)
    (hinv : P1Inv processed m st) :
    P1Inv (processed ++ [q]) (FileStorage.p1Step (m, st) q).1
      (FileStorage.p1Step (m, st) q).2 := by
  obtain ⟨hA, hB, hC, hD, hE, hF⟩ := hinv
  have hndp : (processed.map Quiz.id).Nodup := by
    refine List.Nodup.sublist ?_ hnd
    exact (List.sublist_append_left _ _).map _
  have hnd' := hnd
  rw [List.map_append, List.nodup_append] at hnd'
  have hfreshid : ∀ r ∈ processed, r.id ≠ q.id := by
    intro r hr hcon
    exact hnd'.2.2 (List.mem_map.mpr ⟨r, hr, rfl⟩) (by simp [hcon])
  have hfresh : q ∉ processed := fun hq => hfreshid q hq rfl
  have hq_notin_keep : q.id ∉ st.keep := by
    intro hk
    obtain ⟨r, hr, hrid⟩ := hF q.id hk
    exact hfreshid r hr hrid
  have hq_not_removed : q ∉ st.removed := fun h => hfreshid q (hE q h) rfl
  have hq_not_value : ∀ p ∈ m, p.2 ≠ q := fun p hp hcon =>
    hfreshid q (hcon ▸ (hB p hp).2) rfl
  rcases halk : alookup (createContentHash q) m with _ | ex
  · -- fresh content hash: record q
    rw [p1Step_new halk]
    have hknotin : createContentHash q ∉ m.map Prod.fst :=
      alookup_eq_none_iff.mp halk
    refine ⟨?_, ?_, ?_, ?_, ?_, ?_⟩
    · rw [List.map_append, List.nodup_append]
      refine ⟨hA, by simp, ?_⟩
      intro a ha
      simp only [List.map_cons, List.map_nil, List.mem_singleton]
      intro hcon
      exact hknotin (hcon ▸ ha)
    · intro p hp
      rcases List.mem_append.mp hp with hp | hp
      · exact ⟨(hB p hp).1, List.mem_append_left _ (hB p hp).2⟩
      · rw [List.mem_singleton] at hp
        subst hp
        exact ⟨rfl, List.mem_append_right _ (by simp)⟩
    · intro r hr
      rcases List.mem_append.mp hr with hr | hr
      · have hrq : r.id ≠ q.id := hfreshid r hr
        simp only [Finset.mem_insert]
        constructor
        · intro h
          rcases h with h | h
          · exact absurd h hrq
          · obtain ⟨p, hp, hpr⟩ := (hC r hr).mp h
            exact ⟨p, List.mem_append_left _ hp, hpr⟩
        · intro h
          obtain ⟨p, hp, hpr⟩ := h
          rcases List.mem_append.mp hp with hp | hp
          · exact Or.inr ((hC r hr).mpr ⟨p, hp, hpr⟩)
          · rw [List.mem_singleton] at hp
            subst hp
            have hqr : q = r := hpr
            rw [← hqr] at hr
            exact absurd hr hfresh
      · rw [List.mem_singleton] at hr
        subst hr
        simp only [Finset.mem_insert]
        constructor
        · intro _
          exact ⟨(createContentHash r, r), List.mem_append_right _ (by simp),
            rfl⟩
        · intro _
          exact Or.inl (by simp)
    · intro r hr
      rcases List.mem_append.mp hr with hr | hr
      · have hrq : r.id ≠ q.id := hfreshid r hr
        simp only [Finset.mem_insert]
        rw [hD r hr]
        constructor
        · intro h hcon
          rcases hcon with hcon | hcon
          · exact absurd hcon hrq
          · exact h hcon
        · intro h hcon
          exact h (Or.inr hcon)
      · rw [List.mem_singleton] at hr
        subst hr
        simp only [Finset.mem_insert]
        constructor
        · intro h
          exact absurd h hq_not_removed
        · intro h
          exact absurd (Or.inl trivial) h
    · intro r hr
      exact List.mem_append_left _ (hE r hr)
    · intro i hi
      rcases Finset.mem_insert.mp hi with hi | hi
      · exact ⟨q, List.mem_append_right _ (by simp), hi.symm⟩
      · obtain ⟨r, hr, hrid⟩ := hF i hi
        exact ⟨r, List.mem_append_left _ hr, hrid⟩
  · -- content hash collision with ex
    have hexm : (createContentHash q, ex) ∈ m := alookup_mem halk
    have hexproc : ex ∈ processed := (hB _ hexm).2
    have hexhash : createContentHash ex = createContentHash q := (hB _ hexm).1
    have hkeymem : createContentHash q ∈ m.map Prod.fst :=
      List.mem_map.mpr ⟨_, hexm, rfl⟩
    have hexkept : ex.id ∈ st.keep := (hC ex hexproc).mpr ⟨_, hexm, rfl⟩
    have hne : ¬ q.id = ex.id := fun h => hfreshid ex hexproc h.symm
    have hqex : q ≠ ex := fun h => hfresh (h ▸ hexproc)
    rw [p1Step_found halk hne]
    by_cases hkn : keepNew q ex
    · rw [if_pos hkn]
      refine ⟨?_, ?_, ?_, ?_, ?_, ?_⟩
      · rw [aupdate_keys]
        exact hA
      · intro p hp
        rcases mem_aupdate_nodup hA hp with rfl | ⟨hp, _⟩
        · exact ⟨rfl, List.mem_append_right _ (by simp)⟩
        · exact ⟨(hB p hp).1, List.mem_append_left _ (hB p hp).2⟩
      · intro r hr
        rcases List.mem_append.mp hr with hr | hr
        · by_cases hrex : r = ex
          · subst hrex
            simp only [Finset.mem_insert, Finset.mem_erase]
            constructor
            · intro h
              rcases h with h | h
              · exact absurd h (hfreshid r hr)
              · exact absurd rfl h.1
            · intro h
              obtain ⟨p, hp, hpr⟩ := h
              rcases mem_aupdate_nodup hA hp with rfl | ⟨hpm, hpk⟩
              · exact absurd (show q = r from hpr) hqex
              · have : p.1 = createContentHash q := by
                  rw [← (hB p hpm).1, hpr, hexhash]
                exact absurd this hpk
          · have hrq : r.id ≠ q.id := hfreshid r hr
            have hrex' : r.id ≠ ex.id :=
              fun h => hrex (id_injOn hndp hr hexproc h)
            simp only [Finset.mem_insert, Finset.mem_erase]
            constructor
            · intro h
              rcases h with h | h
              · exact absurd h hrq
              · obtain ⟨p, hp, hpr⟩ := (hC r hr).mp h.2
                have hpk : p.1 ≠ createContentHash q := by
                  intro hcon
                  have : p = (createContentHash q, ex) :=
                    List.inj_on_of_nodup_map hA hp hexm
                      (by rw [hcon])
                  rw [this] at hpr
                  exact hrex hpr.symm
                exact ⟨p, mem_aupdate_of_ne hpk hp, hpr⟩
            · intro h
              obtain ⟨p, hp, hpr⟩ := h
              rcases mem_aupdate_nodup hA hp with rfl | ⟨hpm, _⟩
              · have hqr : q = r := hpr
                rw [← hqr] at hr
                exact absurd hr hfresh
              · exact Or.inr ⟨hrex', (hC r hr).mpr ⟨p, hpm, hpr⟩⟩
        · rw [List.mem_singleton] at hr
          subst hr
          simp only [Finset.mem_insert]
          constructor
          · intro _
            exact ⟨(createContentHash r, r), mem_aupdate_self hkeymem, rfl⟩
          · intro _
            exact Or.inl (by simp)
      · intro r hr
        rcases List.mem_append.mp hr with hr | hr
        · by_cases hrex : r = ex
          · subst hrex
            constructor
            · intro _
              simp only [Finset.mem_insert, Finset.mem_erase]
              intro hcon
              rcases hcon with hcon | hcon
              · exact hfreshid r hr hcon
              · exact hcon.1 rfl
            · intro _
              exact List.mem_append_right _ (by simp)
          · have hrq : r ≠ q := fun h => hfresh (h ▸ hr)
            have hrid : r.id ≠ q.id := hfreshid r hr
            have hrex' : r.id ≠ ex.id :=
              fun h => hrex (id_injOn hndp hr hexproc h)
            rw [show (r ∈ st.removed ++ [ex]) ↔ r ∈ st.removed by
              simp [List.mem_append, hrex]]
            rw [hD r hr]
            simp only [Finset.mem_insert, Finset.mem_erase]
            constructor
            · intro h hcon
              rcases hcon with hcon | hcon
              · exact hrid hcon
              · exact h hcon.2
            · intro h hcon
              exact h (Or.inr ⟨hrex', hcon⟩)
        · rw [List.mem_singleton] at hr
          subst hr
          constructor
          · intro h
            rcases List.mem_append.mp h with h | h
            · exact absurd h hq_not_removed
            · rw [List.mem_singleton] at h
              exact absurd h hqex
          · intro h
            exact absurd (Finset.mem_insert_self _ _) h
      · intro r hr
        rcases List.mem_append.mp hr with hr | hr
        · exact List.mem_append_left _ (hE r hr)
        · rw [List.mem_singleton] at hr
          subst hr
          exact List.mem_append_left _ hexproc
      · intro i hi
        rcases Finset.mem_insert.mp hi with hi | hi
        · exact ⟨q, List.mem_append_right _ (by simp), hi.symm⟩
        · obtain ⟨r, hr, hrid⟩ := hF i (Finset.mem_of_mem_erase hi)
          exact ⟨r, List.mem_append_left _ hr, hrid⟩
    · rw [if_neg hkn]
      refine ⟨hA, ?_, ?_, ?_, ?_, ?_⟩
      · intro p hp
        exact ⟨(hB p hp).1, List.mem_append_left _ (hB p hp).2⟩
      · intro r hr
        rcases List.mem_append.mp hr with hr | hr
        · exact (hC r hr).trans (by rfl)
        · rw [List.mem_singleton] at hr
          subst hr
          constructor
          · intro h
            exact absurd h hq_notin_keep
          · intro h
            obtain ⟨p, hp, hpr⟩ := h
            exact absurd hpr (hq_not_value p hp)
      · intro r hr
        rcases List.mem_append.mp hr with hr | hr
        · have hrq : r ≠ q := fun h => hfresh (h ▸ hr)
          rw [show (r ∈ st.removed ++ [q]) ↔ r ∈ st.removed by
            simp [List.mem_append, hrq]]
          exact hD r hr
        · rw [List.mem_singleton] at hr
          subst hr
          constructor
          · intro _
            exact fun h => hq_notin_keep h
          · intro _
            exact List.mem_append_right _ (by simp)
      · intro r hr
        rcases List.mem_append.mp hr with hr | hr
        · exact List.mem_append_left _ (hE r hr)
        · rw [List.mem_singleton] at hr
          subst hr
          exact List.mem_append_right _ (by simp)
      · intro i hi
        obtain ⟨r, hr, hrid⟩ := hF i hi
        exact ⟨r, List.mem_append_left _ hr, hrid⟩

theorem p1Inv_fold :
    ∀ (rest processed : List Quiz) (m : List (ContentHash × Quiz))
      (st : PassState),
      ((processed ++ rest).map Quiz.id).Nodup →
      P1Inv processed m st →
      P1Inv (processed ++ rest) (rest.foldl FileStorage.p1Step (m, st)).1
        (rest.foldl FileStorage.p1Step (m, st)).2 := by
  intro rest
  induction rest with
  | nil =>
    intro processed m st _ hinv
    simpa using hinv
  | cons q t ih =>
    intro processed m st hnd hinv
    have hnd1 : ((processed ++ [q]).map Quiz.id).Nodup := by
      refine List.Nodup.sublist ?_ hnd
      refine List.Sublist.map _ ?_
      exact List.append_sublist_append_left _ |>.mpr
        (List.singleton_sublist.mpr (List.mem_cons_self _ _))
    have hstep := p1Inv_step hnd1 hinv
    have hnd2 : (((processed ++ [q]) ++ t).map Quiz.id).Nodup := by
      simpa using hnd
    have := ih (processed ++ [q]) (FileStorage.p1Step (m, st) q).1
      (FileStorage.p1Step (m, st) q).2 hnd2 hstep
    rw [Prod.mk.eta] at this
    rw [List.foldl_cons]
    simpa using this

theorem pass1_facts (l : List Quiz) (hnd : (l.map Quiz.id).Nodup) :
    StateCompl l (FileStorage.pass1 l).2 ∧
    (∀ a ∈ l, ∀ b ∈ l, a ≠ b → a.id ∈ (FileStorage.pass1 l).2.keep →
      b.id ∈ (FileStorage.pass1 l).2.keep →
      createContentHash a ≠ createContentHash b) := by
  have h0 : P1Inv [] [] ⟨∅, []⟩ :=
    ⟨by simp, by simp, by simp, by simp, by simp, by simp⟩
  have hinv := p1Inv_fold l [] [] ⟨∅, []⟩ (by simpa using hnd) h0
  rw [List.nil_append] at hinv
  obtain ⟨hA, hB, hC, hD, hE, _⟩ := hinv
  constructor
  · constructor
    · intro x hx
      constructor
      · intro hk hcon
        exact ((hD x hx).mp hcon) hk
      · intro hcon
        by_contra hk
        exact hcon ((hD x hx).mpr hk)
    · exact hE
  · intro a ha b hb hab hka hkb hcon
    obtain ⟨pa, hpa, hpa2⟩ := (hC a ha).mp hka
    obtain ⟨pb, hpb, hpb2⟩ := (hC b hb).mp hkb
    have h1 : pa.1 = createContentHash a := by
      rw [← (hB pa hpa).1, hpa2]
    have h2 : pb.1 = createContentHash b := by
      rw [← (hB pb hpb).1, hpb2]
    have : pa = pb :=
      List.inj_on_of_nodup_map hA hpa hpb (by rw [h1, h2, hcon])
    rw [this, hpb2] at hpa2
    exact hab hpa2.symm

/-! ## Pass 2 invariant -/

theorem p2Step_inv {l processed : List Quiz} {m : List (String × Quiz)}
    {st : PassState} {q : Quiz}
    (hnd : (l.map Quiz.id).Nodup)
    (hsub : ∀ x ∈ processed ++ [q], x ∈ l)
    (hndpq : ((processed ++ [q]).map Quiz.id).Nodup)
    (hc : StateCompl l st) (hinv : P2Inv processed m st) :
    StateCompl l (FileStorage.p2Step (m, st) q).2 ∧
    P2Inv (processed ++ [q]) (FileStorage.p2Step (m, st) q).1
      (FileStorage.p2Step (m, st) q).2 ∧
    (FileStorage.p2Step (m, st) q).2.keep ⊆ st.keep := by
  obtain ⟨hA, hB, hC⟩ := hinv
  have hql : q ∈ l := hsub q (List.mem_append_right _ (by simp))
  have hndpq' := hndpq
  rw [List.map_append, List.nodup_append] at hndpq'
  have hfreshid : ∀ r ∈ processed, r.id ≠ q.id := by
    intro r hr hcon
    exact hndpq'.2.2 (List.mem_map.mpr ⟨r, hr, rfl⟩) (by simp [hcon])
  have hfresh : q ∉ processed := fun hq => hfreshid q hq rfl
  by_cases h1 : q.id ∉ st.keep ∨ uidTruthy q.uniqueId = false
  · rw [p2Step_skip h1]
    refine ⟨hc, ⟨hA, ?_, ?_⟩, fun _ h => h⟩
    · intro p hp
      obtain ⟨w, x, y, z⟩ := hB p hp
      exact ⟨w, x, List.mem_append_left _ y, z⟩
    · intro r hr htr hkr
      rcases List.mem_append.mp hr with hr | hr
      · exact hC r hr htr hkr
      · rw [List.mem_singleton] at hr
        subst hr
        rcases h1 with h1 | h1
        · exact absurd hkr h1
        · rw [htr] at h1
          exact absurd h1 (by simp)
  · push_neg at h1
    obtain ⟨hk1, ht1⟩ := h1
    have ht1' : uidTruthy q.uniqueId = true := by
      simpa using ht1
    rcases halk : alookup (uidStr q) m with _ | ex
    · rw [p2Step_new hk1 ht1' halk]
      refine ⟨hc, ⟨?_, ?_, ?_⟩, fun _ h => h⟩
      · rw [List.map_append, List.nodup_append]
        refine ⟨hA, by simp, ?_⟩
        intro a ha
        simp only [List.map_cons, List.map_nil, List.mem_singleton]
        intro hcon
        exact (alookup_eq_none_iff.mp halk) (hcon ▸ ha)
      · intro p hp
        rcases List.mem_append.mp hp with hp | hp
        · obtain ⟨w, x, y, z⟩ := hB p hp
          exact ⟨w, x, List.mem_append_left _ y, z⟩
        · rw [List.mem_singleton] at hp
          subst hp
          exact ⟨ht1', rfl, List.mem_append_right _ (by simp), hk1⟩
      · intro r hr htr hkr
        rcases List.mem_append.mp hr with hr | hr
        · exact alookup_append_of_some _ (hC r hr htr hkr)
        · rw [List.mem_singleton] at hr
          subst hr
          rw [alookup_append_of_none _ halk]
          simp [alookup]
    · have hexm : (uidStr q, ex) ∈ m := alookup_mem halk
      obtain ⟨htex, hux, hexproc, hexkept⟩ := hB _ hexm
      have hexl : ex ∈ l := hsub ex (List.mem_append_left _ hexproc)
      have hqex : q ≠ ex := fun h => hfresh (h ▸ hexproc)
      have hne : ¬ q.id = ex.id := fun h => hqex (id_injOn hnd hql hexl h)
      rw [p2Step_found hk1 ht1' halk hne]
      by_cases hkn : keepNew q ex
      · rw [if_pos hkn]
        refine ⟨stateCompl_flip hc hexl hnd, ⟨?_, ?_, ?_⟩, ?_⟩
        · rw [aupdate_keys]
          exact hA
        · intro p hp
          rcases mem_aupdate_nodup hA hp with rfl | ⟨hpm, hpk⟩
          · refine ⟨ht1', rfl, List.mem_append_right _ (by simp), ?_⟩
            simp only [Finset.mem_erase]
            exact ⟨hne, hk1⟩
          · obtain ⟨w, x, y, z⟩ := hB p hpm
            refine ⟨w, x, List.mem_append_left _ y, ?_⟩
            simp only [Finset.mem_erase]
            refine ⟨?_, z⟩
            intro hcon
            have hpex : p.2 = ex :=
              id_injOn hnd (hsub p.2 (List.mem_append_left _ y)) hexl hcon
            rw [← x, hpex, hux] at hpk
            exact hpk rfl
        · intro r hr htr hkr
          rcases List.mem_append.mp hr with hr | hr
          · have hrex : r.id ≠ ex.id := (Finset.mem_erase.mp hkr).1
            have hkr' : r.id ∈ st.keep := (Finset.mem_erase.mp hkr).2
            have hold := hC r hr htr hkr'
            have hru : uidStr r ≠ uidStr q := by
              intro hcon
              rw [hcon, halk] at hold
              cases hold
              exact hrex rfl
            rw [alookup_aupdate_ne hru]
            exact hold
          · rw [List.mem_singleton] at hr
            subst hr
            exact alookup_aupdate_self _ _ m (List.mem_map.mpr ⟨_, hexm, rfl⟩)
        · exact Finset.erase_subset _ _
      · rw [if_neg hkn]
        refine ⟨stateCompl_flip hc hql hnd, ⟨hA, ?_, ?_⟩, ?_⟩
        · intro p hp
          obtain ⟨w, x, y, z⟩ := hB p hp
          refine ⟨w, x, List.mem_append_left _ y, ?_⟩
          simp only [Finset.mem_erase]
          refine ⟨?_, z⟩
          intro hcon
          exact hfreshid p.2 y hcon
        · intro r hr htr hkr
          rcases List.mem_append.mp hr with hr | hr
          · have hkr' : r.id ∈ st.keep := (Finset.mem_erase.mp hkr).2
            exact hC r hr htr hkr'
          · rw [List.mem_singleton] at hr
            subst hr
            exact absurd (Finset.mem_erase.mp hkr).1 (by simp)
        · exact Finset.erase_subset _ _

theorem p2Inv_fold {l : List Quiz} (hnd : (l.map Quiz.id).Nodup) :
    ∀ (rest processed : List Quiz) (m : List (String × Quiz))
      (st : PassState),
      (∀ x ∈ processed ++ rest, x ∈ l) →
      ((processed ++ rest).map Quiz.id).Nodup →
      StateCompl l st → P2Inv processed m st →
      StateCompl l (rest.foldl FileStorage.p2Step (m, st)).2 ∧
      P2Inv (processed ++ rest) (rest.foldl FileStorage.p2Step (m, st)).1
        (rest.foldl FileStorage.p2Step (m, st)).2 ∧
      (rest.foldl FileStorage.p2Step (m, st)).2.keep ⊆ st.keep := by
  intro rest
  induction rest with
  | nil =>
    intro processed m st _ _ hc hinv
    exact ⟨hc, by simpa using hinv, fun _ h => h⟩
  | cons q t ih =>
    intro processed m st hsub hndl hc hinv
    have hsub1 : ∀ x ∈ processed ++ [q], x ∈ l := by
      intro x hx
      rcases List.mem_append.mp hx with hx | hx
      · exact hsub x (List.mem_append_left _ hx)
      · rw [List.mem_singleton] at hx
        subst hx
        exact hsub x (List.mem_append_right _ (by simp))
    have hnd1 : ((processed ++ [q]).map Quiz.id).Nodup := by
      refine List.Nodup.sublist ?_ hndl
      refine List.Sublist.map _ ?_
      exact List.append_sublist_append_left _ |>.mpr
        (List.singleton_sublist.mpr (List.mem_cons_self _ _))
    obtain ⟨hc', hinv', hsubk⟩ := p2Step_inv hnd hsub1 hnd1 hc hinv
    have hsub2 : ∀ x ∈ (processed ++ [q]) ++ t, x ∈ l := by
      intro x hx
      refine hsub x ?_
      simpa using hx
    have hnd2 : (((processed ++ [q]) ++ t).map Quiz.id).Nodup := by
      simpa using hndl
    have := ih (processed ++ [q]) (FileStorage.p2Step (m, st) q).1
      (FileStorage.p2Step (m, st) q).2 hsub2 hnd2 hc' hinv'
    rw [Prod.mk.eta] at this
    rw [List.foldl_cons]
    refine ⟨this.1, by simpa using this.2.1, fun i hi => hsubk (this.2.2 hi)⟩

theorem pass2_facts (l : List Quiz) (st1 : PassState)
    (hnd : (l.map Quiz.id).Nodup) (hc : StateCompl l st1) :
    StateCompl l (FileStorage.pass2 l st1).2 ∧
    (FileStorage.pass2 l st1).2.keep ⊆ st1.keep ∧
    (∀ a ∈ l, ∀ b ∈ l, a ≠ b →
      a.id ∈ (FileStorage.pass2 l st1).2.keep →
      b.id ∈ (FileStorage.pass2 l st1).2.keep →
      uidTruthy a.uniqueId = true → uidTruthy b.uniqueId = true →
      a.uniqueId ≠ b.uniqueId) := by
  have h0 : P2Inv [] [] st1 := ⟨by simp, by simp, by simp⟩
  have := p2Inv_fold hnd l [] [] st1 (fun x h => by simpa using h)
    (by simpa using hnd) hc h0
  rw [List.nil_append] at this
  obtain ⟨hc', hinv', hsubk⟩ := this
  refine ⟨hc', hsubk, ?_⟩
  intro a ha b hb hab hka hkb hta htb hcon
  have h1 := hinv'.2.2 a ha hta hka
  have h2 := hinv'.2.2 b hb htb hkb
  have : uidStr a = uidStr b := (uidStr_eq_iff hta htb).mpr hcon
  rw [this, h2] at h1
  cases h1
  exact hab rfl

/-! ## The title map of pass 3 -/

theorem addToGroup_keys (t : String) (q : Quiz) :
    ∀ acc : List (String × List Quiz),
      (FileStorage.addToGroup t q acc).map Prod.fst
        = if t ∈ acc.map Prod.fst then acc.map Prod.fst
          else acc.map Prod.fst ++ [t] := by
  intro acc
  induction acc with
  | nil => simp [FileStorage.addToGroup]
  | cons p r ih =>
    rcases p with ⟨t', g⟩
    by_cases ht : t' = t
    · subst ht
      simp [FileStorage.addToGroup]
    · simp only [FileStorage.addToGroup, if_neg ht, List.map_cons, ih]
      by_cases hmem : t ∈ r.map Prod.fst
      · rw [if_pos hmem, if_pos (by simp [hmem])]
      · rw [if_neg hmem, if_neg (by
          simp only [List.mem_cons, not_or]
          exact ⟨fun h => ht h.symm, hmem⟩)]
        simp

theorem addToGroup_entry (t : String) (q : Quiz) :
    ∀ (acc : List (String × List Quiz)) (tg : String × List Quiz),
      (acc.map Prod.fst).Nodup →
      tg ∈ FileStorage.addToGroup t q acc →
      (tg ∈ acc ∧ tg.1 ≠ t) ∨
      (tg = (t, [q]) ∧ t ∉ acc.map Prod.fst) ∨
      (∃ g, (t, g) ∈ acc ∧ tg = (t, g ++ [q])) := by
  intro acc
  induction acc with
  | nil =>
    intro tg _ htg
    simp only [FileStorage.addToGroup, List.mem_singleton] at htg
    exact Or.inr (Or.inl ⟨htg, by simp⟩)
  | cons p r ih =>
    intro tg hnd htg
    rcases p with ⟨t', g⟩
    rw [List.map_cons, List.nodup_cons] at hnd
    by_cases ht : t' = t
    · subst ht
      rw [show FileStorage.addToGroup t' q ((t', g) :: r)
          = (t', g ++ [q]) :: r from by simp [FileStorage.addToGroup]] at htg
      rcases List.mem_cons.mp htg with rfl | htg
      · exact Or.inr (Or.inr ⟨g, List.mem_cons_self _ _, rfl⟩)
      · by_cases htg1 : tg.1 = t'
        · exfalso
          exact hnd.1 (htg1 ▸ List.mem_map.mpr ⟨tg, htg, rfl⟩)
        · exact Or.inl ⟨List.mem_cons_of_mem _ htg, htg1⟩
    · rw [show FileStorage.addToGroup t q ((t', g) :: r)
          = (t', g) :: FileStorage.addToGroup t q r from by
        simp [FileStorage.addToGroup, ht]] at htg
      rcases List.mem_cons.mp htg with rfl | htg
      · exact Or.inl ⟨List.mem_cons_self _ _, ht⟩
      · rcases ih tg hnd.2 htg with ⟨hmem, hne⟩ | ⟨heq, hnot⟩ | ⟨g', hg', heq⟩
        · exact Or.inl ⟨List.mem_cons_of_mem _ hmem, hne⟩
        · refine Or.inr (Or.inl ⟨heq, ?_⟩)
          simp only [List.map_cons, List.mem_cons, not_or]
          exact ⟨fun h => ht h.symm, hnot⟩
        · exact Or.inr (Or.inr ⟨g', List.mem_cons_of_mem _ hg', heq⟩)

theorem buildTitleMap_inv (keep : Finset Nat) :
    ∀ (rest done : List Quiz) (acc : List (String × List Quiz)),
      (acc.map Prod.fst).Nodup →
      (∀ tg ∈ acc, tg.2 = done.filter
        (fun x => decide (x.id ∈ keep) && decide (normTitle x = tg.1))) →
      (∀ x ∈ done, x.id ∈ keep → normTitle x ∈ acc.map Prod.fst) →
      ((rest.foldl (fun m q => if q.id ∈ keep
          then FileStorage.addToGroup (normTitle q) q m else m) acc).map
            Prod.fst).Nodup ∧
      (∀ tg ∈ rest.foldl (fun m q => if q.id ∈ keep
          then FileStorage.addToGroup (normTitle q) q m else m) acc,
        tg.2 = (done ++ rest).filter
          (fun x => decide (x.id ∈ keep) && decide (normTitle x = tg.1))) ∧
      (∀ x ∈ done ++ rest, x.id ∈ keep →
        normTitle x ∈ (rest.foldl (fun m q => if q.id ∈ keep
          then FileStorage.addToGroup (normTitle q) q m else m) acc).map
            Prod.fst) := by
  intro rest
  induction rest with
  | nil =>
    intro done acc h1 h2 h3
    refine ⟨h1, ?_, ?_⟩
    · intro tg htg
      rw [List.append_nil]
      exact h2 tg htg
    · intro x hx
      rw [List.append_nil] at hx
      exact h3 x hx
  | cons q t ih =>
    intro done acc h1 h2 h3
    rw [List.foldl_cons]
    by_cases hq : q.id ∈ keep
    · rw [if_pos hq]
      have h1' : ((FileStorage.addToGroup (normTitle q) q acc).map
          Prod.fst).Nodup := by
        rw [addToGroup_keys]
        by_cases hmem : normTitle q ∈ acc.map Prod.fst
        · rw [if_pos hmem]
          exact h1
        · rw [if_neg hmem, List.nodup_append]
          exact ⟨h1, by simp, by
            intro a ha
            simp only [List.mem_singleton]
            intro hcon
            exact hmem (hcon ▸ ha)⟩
      have h2' : ∀ tg ∈ FileStorage.addToGroup (normTitle q) q acc,
          tg.2 = (done ++ [q]).filter
            (fun x => decide (x.id ∈ keep) && decide (normTitle x = tg.1)) := by
        intro tg htg
        rcases addToGroup_entry _ _ acc tg h1 htg with
          ⟨hmem, hne⟩ | ⟨heq, hnot⟩ | ⟨g', hg', heq⟩
        · rw [h2 tg hmem, List.filter_append]
          rw [show List.filter (fun x => decide (x.id ∈ keep)
              && decide (normTitle x = tg.1)) [q] = [] from by
            simp [hq]
            exact fun h => hne h.symm]
          rw [List.append_nil]
        · subst heq
          simp only
          rw [List.filter_append]
          rw [show done.filter (fun x => decide (x.id ∈ keep)
              && decide (normTitle x = normTitle q)) = [] from ?_]
          · simp [hq]
          · rw [List.filter_eq_nil_iff]
            intro x hx
            simp only [Bool.and_eq_true, decide_eq_true_eq, not_and]
            intro hxk hxt
            exact hnot (hxt ▸ h3 x hx hxk)
        · subst heq
          simp only
          have hgeq : g' = done.filter (fun x => decide (x.id ∈ keep)
              && decide (normTitle x = normTitle q)) :=
            h2 (normTitle q, g') hg'
          rw [hgeq, List.filter_append]
          congr 1
          simp [hq]
      have h3' : ∀ x ∈ done ++ [q], x.id ∈ keep →
          normTitle x ∈ (FileStorage.addToGroup (normTitle q) q acc).map
            Prod.fst := by
        intro x hx hxk
        rw [addToGroup_keys]
        rcases List.mem_append.mp hx with hx | hx
        · by_cases hmem : normTitle q ∈ acc.map Prod.fst
          · rw [if_pos hmem]
            exact h3 x hx hxk
          · rw [if_neg hmem]
            exact List.mem_append_left _ (h3 x hx hxk)
        · rw [List.mem_singleton] at hx
          subst hx
          by_cases hmem : normTitle x ∈ acc.map Prod.fst
          · rw [if_pos hmem]
            exact hmem
          · rw [if_neg hmem]
            exact List.mem_append_right _ (by simp)
      have := ih (done ++ [q]) _ h1' h2' h3'
      refine ⟨this.1, ?_, ?_⟩
      · intro tg htg
        rw [show done ++ q :: t = (done ++ [q]) ++ t from by simp]
        exact this.2.1 tg htg
      · intro x hx hxk
        refine this.2.2 x ?_ hxk
        rw [show (done ++ [q]) ++ t = done ++ q :: t from by simp]
        exact hx
    · rw [if_neg hq]
      have h2' : ∀ tg ∈ acc,
          tg.2 = (done ++ [q]).filter
            (fun x => decide (x.id ∈ keep) && decide (normTitle x = tg.1)) := by
        intro tg htg
        rw [h2 tg htg, List.filter_append]
        rw [show List.filter (fun x => decide (x.id ∈ keep)
            && decide (normTitle x = tg.1)) [q] = [] from by simp [hq]]
        rw [List.append_nil]
      have h3' : ∀ x ∈ done ++ [q], x.id ∈ keep →
          normTitle x ∈ acc.map Prod.fst := by
        intro x hx hxk
        rcases List.mem_append.mp hx with hx | hx
        · exact h3 x hx hxk
        · rw [List.mem_singleton] at hx
          subst hx
          exact absurd hxk hq
      have := ih (done ++ [q]) acc h1 h2' h3'
      refine ⟨this.1, ?_, ?_⟩
      · intro tg htg
        rw [show done ++ q :: t = (done ++ [q]) ++ t from by simp]
        exact this.2.1 tg htg
      · intro x hx hxk
        refine this.2.2 x ?_ hxk
        rw [show (done ++ [q]) ++ t = done ++ q :: t from by simp]
        exact hx

theorem buildTitleMap_spec (keep : Finset Nat) (l : List Quiz) :
    (∀ tg ∈ FileStorage.buildTitleMap keep l,
      tg.2 = l.filter
        (fun x => decide (x.id ∈ keep) && decide (normTitle x = tg.1))) ∧
    (∀ x ∈ l, x.id ∈ keep →
      ∃ g, (normTitle x, g) ∈ FileStorage.buildTitleMap keep l) := by
  have := buildTitleMap_inv keep l [] [] (by simp) (by simp) (by simp)
  rw [List.nil_append] at this
  refine ⟨this.2.1, ?_⟩
  intro x hx hxk
  have := this.2.2 x (by simpa using hx) hxk
  obtain ⟨tg, htg, heq⟩ := List.mem_map.mp this
  rcases tg with ⟨tt, g⟩
  exact ⟨g, by rwa [show tt = normTitle x from heq] at htg⟩

/-! ## Pass 3: the fuzzy title pass -/

theorem p3Inner_keep_subset (q1 : Quiz) :
    ∀ (g : List Quiz) (st : PassState),
      (FileStorage.p3Inner q1 g st).keep ⊆ st.keep := by
  intro g
  induction g with
  | nil => intro st; exact fun _ h => h
  | cons q2 rest ih =>
    intro st
    simp only [FileStorage.p3Inner]
    by_cases h1 : q2.id ∉ st.keep
    · rw [if_pos h1]
      exact ih st
    · rw [if_neg h1]
      by_cases h2 : similarVerdict q1 q2
      · rw [if_pos h2]
        by_cases h3 : keepQuiz1 q1 q2
        · rw [if_pos h3]
          intro i hi
          exact Finset.erase_subset _ _
            (ih ⟨st.keep.erase q2.id, st.removed ++ [q2]⟩ hi)
        · rw [if_neg h3]
          intro i hi
          exact Finset.erase_subset _ _ hi
      · rw [if_neg h2]
        exact ih st

theorem p3Inner_pair (q1 : Quiz) :
    ∀ (g : List Quiz) (st : PassState) (b : Quiz), b ∈ g →
      q1.id ∈ (FileStorage.p3Inner q1 g st).keep →
      b.id ∈ (FileStorage.p3Inner q1 g st).keep →
      similarVerdict q1 b = false := by
  intro g
  induction g with
  | nil => intro st b hb; simp at hb
  | cons q2 rest ih =>
    intro st b hb hq1 hbk
    simp only [FileStorage.p3Inner] at hq1 hbk
    by_cases h1 : q2.id ∉ st.keep
    · rw [if_pos h1] at hq1 hbk
      rcases List.mem_cons.mp hb with rfl | hb
      · exact absurd (p3Inner_keep_subset q1 rest st hbk) h1
      · exact ih st b hb hq1 hbk
    · rw [if_neg h1] at hq1 hbk
      by_cases h2 : similarVerdict q1 q2
      · rw [if_pos h2] at hq1 hbk
        by_cases h3 : keepQuiz1 q1 q2
        · rw [if_pos h3] at hq1 hbk
          rcases List.mem_cons.mp hb with rfl | hb
          · exfalso
            have := p3Inner_keep_subset q1 rest
              ⟨st.keep.erase b.id, st.removed ++ [b]⟩ hbk
            simp at this
          · exact ih _ b hb hq1 hbk
        · rw [if_neg h3] at hq1 hbk
          exfalso
          simp at hq1
      · rw [if_neg h2] at hq1 hbk
        rcases List.mem_cons.mp hb with rfl | hb
        · simpa using h2
        · exact ih st b hb hq1 hbk

theorem p3Inner_compl (q1 : Quiz) {l : List Quiz}
    (hnd : (l.map Quiz.id).Nodup) (hq1 : q1 ∈ l) :
    ∀ (g : List Quiz) (st : PassState), (∀ x ∈ g, x ∈ l) →
      StateCompl l st → StateCompl l (FileStorage.p3Inner q1 g st) := by
  intro g
  induction g with
  | nil => intro st _ hc; exact hc
  | cons q2 rest ih =>
    intro st hg hc
    have hq2l : q2 ∈ l := hg q2 (List.mem_cons_self _ _)
    have hrest : ∀ x ∈ rest, x ∈ l := fun x hx =>
      hg x (List.mem_cons_of_mem _ hx)
    simp only [FileStorage.p3Inner]
    by_cases h1 : q2.id ∉ st.keep
    · rw [if_pos h1]
      exact ih st hrest hc
    · rw [if_neg h1]
      by_cases h2 : similarVerdict q1 q2
      · rw [if_pos h2]
        by_cases h3 : keepQuiz1 q1 q2
        · rw [if_pos h3]
          exact ih _ hrest (stateCompl_flip hc hq2l hnd)
        · rw [if_neg h3]
          exact stateCompl_flip hc hq1 hnd
      · rw [if_neg h2]
        exact ih st hrest hc

theorem p3Outer_keep_subset :
    ∀ (g : List Quiz) (st : PassState),
      (FileStorage.p3Outer g st).keep ⊆ st.keep := by
  intro g
  induction g with
  | nil => intro st; exact fun _ h => h
  | cons q1 rest ih =>
    intro st
    simp only [FileStorage.p3Outer]
    by_cases h1 : q1.id ∉ st.keep
    · rw [if_pos h1]
      exact ih st
    · rw [if_neg h1]
      intro i hi
      exact p3Inner_keep_subset q1 rest st (ih _ hi)

theorem p3Outer_compl {l : List Quiz} (hnd : (l.map Quiz.id).Nodup) :
    ∀ (g : List Quiz) (st : PassState), (∀ x ∈ g, x ∈ l) →
      StateCompl l st → StateCompl l (FileStorage.p3Outer g st) := by
  intro g
  induction g with
  | nil => intro st _ hc; exact hc
  | cons q1 rest ih =>
    intro st hg hc
    have hq1l : q1 ∈ l := hg q1 (List.mem_cons_self _ _)
    have hrest : ∀ x ∈ rest, x ∈ l := fun x hx =>
      hg x (List.mem_cons_of_mem _ hx)
    simp only [FileStorage.p3Outer]
    by_cases h1 : q1.id ∉ st.keep
    · rw [if_pos h1]
      exact ih st hrest hc
    · rw [if_neg h1]
      exact ih _ hrest (p3Inner_compl q1 hnd hq1l rest st hrest hc)

theorem p3Outer_pairwise :
    ∀ (g : List Quiz) (st : PassState),
      g.Pairwise (fun a b => a.id ∈ (FileStorage.p3Outer g st).keep →
        b.id ∈ (FileStorage.p3Outer g st).keep →
        similarVerdict a b = false) := by
  intro g
  induction g with
  | nil => intro st; exact List.Pairwise.nil
  | cons q1 rest ih =>
    intro st
    refine List.pairwise_cons.mpr ⟨?_, ?_⟩
    · intro b hb hq1k hbk
      simp only [FileStorage.p3Outer] at hq1k hbk
      by_cases h1 : q1.id ∉ st.keep
      · rw [if_pos h1] at hq1k
        exact absurd (p3Outer_keep_subset rest st hq1k) h1
      · rw [if_neg h1] at hq1k hbk
        exact p3Inner_pair q1 rest st b hb
          (p3Outer_keep_subset _ _ hq1k) (p3Outer_keep_subset _ _ hbk)
    · have heq : FileStorage.p3Outer (q1 :: rest) st
          = if q1.id ∉ st.keep then FileStorage.p3Outer rest st
            else FileStorage.p3Outer rest (FileStorage.p3Inner q1 rest st) :=
        by simp only [FileStorage.p3Outer]
      by_cases h1 : q1.id ∉ st.keep
      · rw [heq, if_pos h1]
        exact ih st
      · rw [heq, if_neg h1]
        exact ih _

theorem p3Groups_keep_subset :
    ∀ (gs : List (String × List Quiz)) (st : PassState),
      (FileStorage.p3Groups gs st).keep ⊆ st.keep := by
  intro gs
  induction gs with
  | nil => intro st; exact fun _ h => h
  | cons tg gs' ih =>
    intro st
    rcases tg with ⟨t, g⟩
    simp only [FileStorage.p3Groups]
    by_cases hlen : 1 < g.length
    · rw [if_pos hlen]
      intro i hi
      exact p3Outer_keep_subset g st (ih _ hi)
    · rw [if_neg hlen]
      exact ih st

theorem p3Groups_compl {l : List Quiz} (hnd : (l.map Quiz.id).Nodup) :
    ∀ (gs : List (String × List Quiz)) (st : PassState),
      (∀ tg ∈ gs, ∀ x ∈ tg.2, x ∈ l) →
      StateCompl l st → StateCompl l (FileStorage.p3Groups gs st) := by
  intro gs
  induction gs with
  | nil => intro st _ hc; exact hc
  | cons tg gs' ih =>
    intro st hgs hc
    rcases tg with ⟨t, g⟩
    have hg : ∀ x ∈ g, x ∈ l := hgs (t, g) (List.mem_cons_self _ _)
    have hgs' : ∀ tg ∈ gs', ∀ x ∈ tg.2, x ∈ l := fun tg htg =>
      hgs tg (List.mem_cons_of_mem _ htg)
    simp only [FileStorage.p3Groups]
    by_cases hlen : 1 < g.length
    · rw [if_pos hlen]
      exact ih _ hgs' (p3Outer_compl hnd g st hg hc)
    · rw [if_neg hlen]
      exact ih st hgs' hc

theorem p3Groups_pairwise :
    ∀ (gs : List (String × List Quiz)) (st : PassState), ∀ tg ∈ gs,
      tg.2.Pairwise (fun a b =>
        a.id ∈ (FileStorage.p3Groups gs st).keep →
        b.id ∈ (FileStorage.p3Groups gs st).keep →
        similarVerdict a b = false) := by
  intro gs
  induction gs with
  | nil => intro st tg htg; simp at htg
  | cons tg0 gs' ih =>
    intro st tg htg
    rcases tg0 with ⟨t, g⟩
    have heq : FileStorage.p3Groups ((t, g) :: gs') st
        = FileStorage.p3Groups gs'
            (if 1 < g.length then FileStorage.p3Outer g st else st) := by
      simp only [FileStorage.p3Groups]
    rcases List.mem_cons.mp htg with rfl | htg
    · by_cases hlen : 1 < g.length
      · refine (p3Outer_pairwise g st).imp ?_
        intro a b hab ha hb
        rw [heq, if_pos hlen] at ha hb
        exact hab (p3Groups_keep_subset gs' _ ha)
          (p3Groups_keep_subset gs' _ hb)
      · exact pairwise_of_length_le_one (Nat.le_of_not_lt hlen)
    · rw [heq]
      by_cases hlen : 1 < g.length
      · rw [if_pos hlen]
        exact ih _ tg htg
      · rw [if_neg hlen]
        exact ih st tg htg

/-! ## Assembling the three passes: the survivors are pairwise clean -/

theorem pairwise_of_sublist_mem {R : α → α → Prop} :
    ∀ {s l : List α}, List.Sublist s l → l.Nodup → s.Pairwise R →
      l.Pairwise (fun a b => a ∈ s → b ∈ s → R a b) := by
  intro s l hsl
  induction hsl with
  | slnil =>
    intro _ _
    exact List.Pairwise.nil
  | cons a hsl ih =>
    intro hnd hp
    rw [List.nodup_cons] at hnd
    refine List.pairwise_cons.mpr ⟨?_, ih hnd.2 hp⟩
    intro b _ has _
    exact absurd (hsl.subset has) hnd.1
  | cons₂ a hsl ih =>
    intro hnd hp
    rw [List.nodup_cons] at hnd
    rw [List.pairwise_cons] at hp
    refine List.pairwise_cons.mpr ⟨?_, ?_⟩
    · intro b hbl _ hbx
      rcases List.mem_cons.mp hbx with rfl | hbs
      · exact absurd hbl hnd.1
      · exact hp.1 b hbs
    · refine (ih hnd.2 hp.2).imp_of_mem ?_
      intro x y hxl hyl h hxs hys
      rcases List.mem_cons.mp hxs with rfl | hxs'
      · exact absurd hxl hnd.1
      · rcases List.mem_cons.mp hys with rfl | hys'
        · exact absurd hyl hnd.1
        · exact h hxs' hys'

theorem pass3_facts (l : List Quiz) (st2 : PassState)
    (hnd : (l.map Quiz.id).Nodup) (hc : StateCompl l st2) :
    StateCompl l (FileStorage.pass3 l st2) ∧
    (FileStorage.pass3 l st2).keep ⊆ st2.keep := by
  have hmem : ∀ tg ∈ FileStorage.buildTitleMap st2.keep l,
      ∀ x ∈ tg.2, x ∈ l := by
    intro tg htg x hx
    have heq := (buildTitleMap_spec st2.keep l).1 tg htg
    rw [heq] at hx
    exact (List.mem_filter.mp hx).1
  simp only [FileStorage.pass3]
  exact ⟨p3Groups_compl hnd _ st2 hmem hc, p3Groups_keep_subset _ st2⟩

theorem pass3_title_pairwise (l : List Quiz) (st2 : PassState)
    (hnd : (l.map Quiz.id).Nodup) :
    l.Pairwise (fun a b =>
      a.id ∈ (FileStorage.pass3 l st2).keep →
      b.id ∈ (FileStorage.pass3 l st2).keep →
      normTitle a = normTitle b → similarVerdict a b = false) := by
  have hndl : l.Nodup := List.Nodup.of_map _ hnd
  rw [List.pairwise_iff_getElem]
  intro i j hi hj hij ha hb ht
  simp only [FileStorage.pass3] at ha hb
  have hsub : (FileStorage.p3Groups (FileStorage.buildTitleMap st2.keep l)
      st2).keep ⊆ st2.keep := p3Groups_keep_subset _ st2
  have hal : l[i] ∈ l := List.mem_iff_get.mpr ⟨⟨i, hi⟩, rfl⟩
  have hbl : l[j] ∈ l := List.mem_iff_get.mpr ⟨⟨j, hj⟩, rfl⟩
  obtain ⟨g, hg⟩ := (buildTitleMap_spec st2.keep l).2 l[i] hal (hsub ha)
  have hgeq : g = l.filter (fun x =>
      decide (x.id ∈ st2.keep) && decide (normTitle x = normTitle l[i])) :=
    (buildTitleMap_spec st2.keep l).1 _ hg
  have hpw := p3Groups_pairwise (FileStorage.buildTitleMap st2.keep l) st2 _ hg
  have hgsl : List.Sublist g l := by
    rw [hgeq]
    exact List.filter_sublist l
  have hlift := pairwise_of_sublist_mem hgsl hndl hpw
  have hrel := List.pairwise_iff_getElem.mp hlift i j hi hj hij
  have hag : l[i] ∈ g := by
    rw [hgeq]
    refine List.mem_filter.mpr ⟨hal, ?_⟩
    simp [hsub ha]
  have hbg : l[j] ∈ g := by
    rw [hgeq]
    refine List.mem_filter.mpr ⟨hbl, ?_⟩
    simp [hsub hb, ht]
  exact hrel hag hbg ha hb

theorem dedup_survivors_clean (l : List Quiz)
    (hnd : (l.map Quiz.id).Nodup) :
    CleanList (FileStorage.removeDuplicateQuizzes l).survivors := by
  by_cases hlen : l.length ≤ 1
  · rw [FileStorage.removeDuplicateQuizzes, if_pos hlen]
    exact pairwise_of_length_le_one hlen
  · have hsurv : (FileStorage.removeDuplicateQuizzes l).survivors
        = l.filter (fun q => decide (q.id ∉
            (FileStorage.pass3 l (FileStorage.pass2 l
              (FileStorage.pass1 l).2).2).removed.map Quiz.id)) := by
      rw [FileStorage.removeDuplicateQuizzes, if_neg hlen]
    rw [hsurv]
    have hc1 := (pass1_facts l hnd).1
    have hhash := (pass1_facts l hnd).2
    obtain ⟨hc2, hsub2, huid⟩ := pass2_facts l (FileStorage.pass1 l).2 hnd hc1
    obtain ⟨hc3, hsub3⟩ := pass3_facts l
      (FileStorage.pass2 l (FileStorage.pass1 l).2).2 hnd hc2
    have htitle := pass3_title_pairwise l
      (FileStorage.pass2 l (FileStorage.pass1 l).2).2 hnd
    have hid : l.Pairwise (fun a b => a.id ≠ b.id) :=
      List.Pairwise.of_map Quiz.id (fun _ _ h => h) hnd
    have hfull : l.Pairwise (fun a b =>
        a.id ∈ (FileStorage.pass3 l (FileStorage.pass2 l
          (FileStorage.pass1 l).2).2).keep →
        b.id ∈ (FileStorage.pass3 l (FileStorage.pass2 l
          (FileStorage.pass1 l).2).2).keep →
        (a.id ≠ b.id ∧
         createContentHash a ≠ createContentHash b ∧
         (uidTruthy a.uniqueId = true → uidTruthy b.uniqueId = true →
           a.uniqueId ≠ b.uniqueId) ∧
         (normTitle a = normTitle b → similarVerdict a b = false))) := by
      rw [List.pairwise_iff_getElem]
      intro i j hi hj hij hka hkb
      have hal : l[i] ∈ l := List.mem_iff_get.mpr ⟨⟨i, hi⟩, rfl⟩
      have hbl : l[j] ∈ l := List.mem_iff_get.mpr ⟨⟨j, hj⟩, rfl⟩
      have hidne : l[i].id ≠ l[j].id :=
        List.pairwise_iff_getElem.mp hid i j hi hj hij
      have hne : l[i] ≠ l[j] := fun h => hidne (congrArg Quiz.id h)
      have hti := List.pairwise_iff_getElem.mp htitle i j hi hj hij
      refine ⟨hidne, ?_, ?_, fun ht => hti hka hkb ht⟩
      · exact hhash l[i] hal l[j] hbl hne
          (hsub2 (hsub3 hka)) (hsub2 (hsub3 hkb))
      · exact fun hta htb => huid l[i] hal l[j] hbl hne
          (hsub3 hka) (hsub3 hkb) hta htb
    refine (hfull.filter _).imp_of_mem ?_
    intro a b ha hb h
    have ha' := List.mem_filter.mp ha
    have hb' := List.mem_filter.mp hb
    have hnra : a.id ∉ (FileStorage.pass3 l (FileStorage.pass2 l
        (FileStorage.pass1 l).2).2).removed.map Quiz.id := by
      simpa using ha'.2
    have hnrb : b.id ∉ (FileStorage.pass3 l (FileStorage.pass2 l
        (FileStorage.pass1 l).2).2).removed.map Quiz.id := by
      simpa using hb'.2
    have hka := (hc3.1 a ha'.1).mpr
      (fun hrem => hnra (List.mem_map.mpr ⟨a, hrem, rfl⟩))
    have hkb := (hc3.1 b hb'.1).mpr
      (fun hrem => hnrb (List.mem_map.mpr ⟨b, hrem, rfl⟩))
    exact h hka hkb

/-! ## Deduplication is a no-op on an already-clean collection -/

theorem p1_clean_fold :
    ∀ (l done : List Quiz) (m : List (ContentHash × Quiz)) (st : PassState),
      (∀ p ∈ m, p.2 ∈ done ∧ createContentHash p.2 = p.1) →
      (done ++ l).Pairwise
        (fun a b => createContentHash a ≠ createContentHash b) →
      (l.foldl FileStorage.p1Step (m, st)).2.removed = st.removed := by
  intro l
  induction l with
  | nil =>
    intro done m st _ _
    rfl
  | cons q t ih =>
    intro done m st hm hpw
    have hdq : ∀ a ∈ done, createContentHash a ≠ createContentHash q := by
      intro a ha
      exact (List.pairwise_append.mp hpw).2.2 a ha q (List.mem_cons_self _ _)
    have hnone : alookup (createContentHash q) m = none := by
      rw [alookup_eq_none_iff]
      intro hmem
      obtain ⟨p, hp, hfst⟩ := List.mem_map.mp hmem
      exact hdq p.2 (hm p hp).1 (((hm p hp).2.trans hfst).symm ▸ rfl)
    rw [List.foldl_cons, p1Step_new hnone]
    refine ih (done ++ [q]) _ _ ?_ ?_
    · intro p hp
      rcases List.mem_append.mp hp with hp' | hp'
      · exact ⟨List.mem_append_left _ (hm p hp').1, (hm p hp').2⟩
      · have : p = (createContentHash q, q) := by simpa using hp'
        subst this
        exact ⟨by simp, rfl⟩
    · rw [show (done ++ [q]) ++ t = done ++ q :: t from by simp]
      exact hpw

theorem p2_clean_fold :
    ∀ (l done : List Quiz) (m : List (String × Quiz)) (st : PassState),
      (∀ p ∈ m, p.2 ∈ done ∧ uidTruthy p.2.uniqueId = true ∧
        uidStr p.2 = p.1) →
      (done ++ l).Pairwise (fun a b => uidTruthy a.uniqueId = true →
        uidTruthy b.uniqueId = true → a.uniqueId ≠ b.uniqueId) →
      (l.foldl FileStorage.p2Step (m, st)).2 = st := by
  intro l
  induction l with
  | nil =>
    intro done m st _ _
    rfl
  | cons q t ih =>
    intro done m st hm hpw
    have hpw' : ((done ++ [q]) ++ t).Pairwise
        (fun a b => uidTruthy a.uniqueId = true →
          uidTruthy b.uniqueId = true → a.uniqueId ≠ b.uniqueId) := by
      rw [show (done ++ [q]) ++ t = done ++ q :: t from by simp]
      exact hpw
    rw [List.foldl_cons]
    by_cases hsk : q.id ∉ st.keep ∨ uidTruthy q.uniqueId = false
    · rw [p2Step_skip hsk]
      refine ih (done ++ [q]) m st ?_ hpw'
      intro p hp
      exact ⟨List.mem_append_left _ (hm p hp).1, (hm p hp).2⟩
    · push_neg at hsk
      have hk : q.id ∈ st.keep := hsk.1
      have htq : uidTruthy q.uniqueId = true := by
        cases h : uidTruthy q.uniqueId
        · exact absurd h hsk.2
        · rfl
      have hnone : alookup (uidStr q) m = none := by
        rw [alookup_eq_none_iff]
        intro hmem
        obtain ⟨p, hp, hfst⟩ := List.mem_map.mp hmem
        have hrel := (List.pairwise_append.mp hpw).2.2 p.2 (hm p hp).1 q
          (List.mem_cons_self _ _) (hm p hp).2.1 htq
        have : uidStr p.2 = uidStr q := (hm p hp).2.2.trans hfst
        exact hrel ((uidStr_eq_iff (hm p hp).2.1 htq).mp this)
      rw [p2Step_new hk htq hnone]
      refine ih (done ++ [q]) _ st ?_ hpw'
      intro p hp
      rcases List.mem_append.mp hp with hp' | hp'
      · exact ⟨List.mem_append_left _ (hm p hp').1, (hm p hp').2⟩
      · have : p = (uidStr q, q) := by simpa using hp'
        subst this
        exact ⟨by simp, htq, rfl⟩

theorem p3Inner_noop (q1 : Quiz) :
    ∀ (g : List Quiz) (st : PassState),
      (∀ q2 ∈ g, similarVerdict q1 q2 = false) →
      FileStorage.p3Inner q1 g st = st := by
  intro g
  induction g with
  | nil =>
    intro st _
    rfl
  | cons q2 rest ih =>
    intro st hv
    have hrest : ∀ x ∈ rest, similarVerdict q1 x = false := fun x hx =>
      hv x (List.mem_cons_of_mem _ hx)
    simp only [FileStorage.p3Inner]
    by_cases h1 : q2.id ∉ st.keep
    · rw [if_pos h1]
      exact ih st hrest
    · rw [if_neg h1, if_neg (by simp [hv q2 (List.mem_cons_self _ _)])]
      exact ih st hrest

theorem p3Outer_noop :
    ∀ (g : List Quiz) (st : PassState),
      g.Pairwise (fun a b => similarVerdict a b = false) →
      FileStorage.p3Outer g st = st := by
  intro g
  induction g with
  | nil =>
    intro st _
    rfl
  | cons q1 rest ih =>
    intro st hpw
    rw [List.pairwise_cons] at hpw
    simp only [FileStorage.p3Outer]
    by_cases h1 : q1.id ∉ st.keep
    · rw [if_pos h1]
      exact ih st hpw.2
    · rw [if_neg h1, p3Inner_noop q1 rest st hpw.1]
      exact ih st hpw.2

theorem p3Groups_noop :
    ∀ (gs : List (String × List Quiz)) (st : PassState),
      (∀ tg ∈ gs, tg.2.Pairwise (fun a b => similarVerdict a b = false)) →
      FileStorage.p3Groups gs st = st := by
  intro gs
  induction gs with
  | nil =>
    intro st _
    rfl
  | cons tg0 gs' ih =>
    intro st hgs
    rcases tg0 with ⟨t, g⟩
    have hg : g.Pairwise (fun a b => similarVerdict a b = false) :=
      hgs (t, g) (List.mem_cons_self _ _)
    have hgs' : ∀ tg ∈ gs', tg.2.Pairwise
        (fun a b => similarVerdict a b = false) := fun tg htg =>
      hgs tg (List.mem_cons_of_mem _ htg)
    simp only [FileStorage.p3Groups]
    by_cases hlen : 1 < g.length
    · rw [if_pos hlen, p3Outer_noop g st hg]
      exact ih st hgs'
    · rw [if_neg hlen]
      exact ih st hgs'

theorem pass3_clean_noop (l : List Quiz) (st : PassState)
    (hcl : l.Pairwise (fun a b => normTitle a = normTitle b →
      similarVerdict a b = false)) :
    FileStorage.pass3 l st = st := by
  simp only [FileStorage.pass3]
  apply p3Groups_noop
  intro tg htg
  have hgeq := (buildTitleMap_spec st.keep l).1 tg htg
  rw [hgeq]
  refine (hcl.filter _).imp_of_mem ?_
  intro a b ha hb h
  have hta : normTitle a = tg.1 := by
    have := (List.mem_filter.mp ha).2
    simp only [Bool.and_eq_true, decide_eq_true_eq] at this
    exact this.2
  have htb : normTitle b = tg.1 := by
    have := (List.mem_filter.mp hb).2
    simp only [Bool.and_eq_true, decide_eq_true_eq] at this
    exact this.2
  exact h (hta.trans htb.symm)

theorem dedup_clean_noop (l : List Quiz) (hcl : CleanList l) :
    FileStorage.removeDuplicateQuizzes l = ⟨l, []⟩ := by
  by_cases hlen : l.length ≤ 1
  · rw [FileStorage.removeDuplicateQuizzes, if_pos hlen]
  · have h1 : (FileStorage.pass1 l).2.removed = [] :=
      p1_clean_fold l [] [] ⟨∅, []⟩ (by simp)
        (by simpa using hcl.imp (fun h => h.2.1))
    have h2 : (FileStorage.pass2 l (FileStorage.pass1 l).2).2
        = (FileStorage.pass1 l).2 :=
      p2_clean_fold l [] [] (FileStorage.pass1 l).2 (by simp)
        (by simpa using hcl.imp (fun h => h.2.2.1))
    have h3 : FileStorage.pass3 l (FileStorage.pass2 l
        (FileStorage.pass1 l).2).2 = (FileStorage.pass1 l).2 := by
      rw [h2]
      exact pass3_clean_noop l _ (hcl.imp (fun h => h.2.2.2))
    have hshow : FileStorage.removeDuplicateQuizzes l
        = ⟨l.filter (fun q => decide (q.id ∉
            (FileStorage.pass3 l (FileStorage.pass2 l
              (FileStorage.pass1 l).2).2).removed.map Quiz.id)),
           (FileStorage.pass3 l (FileStorage.pass2 l
              (FileStorage.pass1 l).2).2).removed⟩ := by
      rw [FileStorage.removeDuplicateQuizzes, if_neg hlen]
    rw [hshow, h3, h1]
    simp

/-- C4: deduplication is idempotent - on a store whose ids are distinct (the
shared store is keyed by id), a second run of `removeDuplicateQuizzes` on
the survivors of a first run removes nothing and returns the survivors
unchanged. -/
theorem C4_dedup_idempotent (l : List Quiz)
    (hnd : (l.map Quiz.id).Nodup) :
    FileStorage.removeDuplicateQuizzes
        (FileStorage.removeDuplicateQuizzes l).survivors
      = ⟨(FileStorage.removeDuplicateQuizzes l).survivors, []⟩ :=
  dedup_clean_noop _ (dedup_survivors_clean l hnd)

theorem C4_dedup_idempotent_witness :
    FileStorage.removeDuplicateQuizzes
        (FileStorage.removeDuplicateQuizzes [c4a, c4b]).survivors
      = ⟨(FileStorage.removeDuplicateQuizzes [c4a, c4b]).survivors, []⟩ :=
  C4_dedup_idempotent [c4a, c4b] (by decide)

/-- C8: identifier matching wins - among the survivors of
`removeDuplicateQuizzes` on an id-keyed store, at most one record carries
any given truthy `uniqueId`: two survivors with equal truthy `uniqueId`s
are the same record. -/
theorem C8_stableId_unique (l : List Quiz)
    (hnd : (l.map Quiz.id).Nodup) (a b : Quiz)
    (ha : a ∈ (FileStorage.removeDuplicateQuizzes l).survivors)
    (hb : b ∈ (FileStorage.removeDuplicateQuizzes l).survivors)
    (hta : uidTruthy a.uniqueId = true) (htb : uidTruthy b.uniqueId = true)
    (huid : a.uniqueId = b.uniqueId) : a = b := by
  by_cases hab : a = b
  · exact hab
  · exfalso
    have hcl := dedup_survivors_clean l hnd
    have hsymm : Symmetric (fun x y : Quiz =>
        uidTruthy x.uniqueId = true → uidTruthy y.uniqueId = true →
          x.uniqueId ≠ y.uniqueId) :=
      fun x y h hy hx => Ne.symm (h hx hy)
    have hpw := (hcl.imp (fun h => h.2.2.1)).forall hsymm
    exact hpw ha hb hab hta htb huid

theorem C8_stableId_unique_witness : c8b = c8b :=
  C8_stableId_unique [c8a, c8b] (by decide) c8b c8b (by decide) (by decide)
    (by decide) (by decide) rfl

end QuizApp
